import Mathlib

/-!
Verification of the forking blockchain store (`ForkBlockchain.ts`) of the
buidler repository.

The store keeps five indexes (blocks by number, blocks by hash, total
difficulty by block hash, transactions by hash, transaction-to-block) plus a
mutable latest height `L` and an immutable fork height `F`.  Map keys in the
source are hex strings of 32-byte digests; `bufferToHex` is injective on
those, so keys are modelled as natural numbers.  Block and transaction hashes
are produced by keccak over the contents; we model them as an injective
function of the contents (`blockHash`, `txHash`), which reflects the
collision-freeness the source relies on.

Every operation takes the upstream JSON-RPC client as an explicit oracle
parameter and returns `Except Err α × ForkBlockchain`: the state is returned
even on error, because the source mutates the maps in place and a thrown
error can leave a partially updated store.
-/

/-- A transaction is opaque to the store: the code only ever reads `hash()`.
We model the signed payload as one number. -/
structure Transaction where
  payload : Nat
deriving DecidableEq, Repr

/-- Header fields of a block that `ForkBlockchain` reads: `number`,
`parentHash` and `difficulty`. -/
structure BlockHeader where
  number : Nat
  parentHash : Nat
  difficulty : Nat
deriving DecidableEq, Repr

/-- A block: header plus ordered transactions.  `hash()` is derived, see
`blockHash`. -/
structure Block where
  header : BlockHeader
  transactions : List Transaction
deriving DecidableEq, Repr

/-- `Transaction.hash()`: injective digest of the signed payload. -/
def txHash (t : Transaction) : Nat := t.payload

/-- Injective encoding of a transaction list into one natural number. -/
def encodeTxList : List Transaction → Nat
  | [] => 0
  | t :: ts => Nat.pair (txHash t) (encodeTxList ts) + 1

/-- `Block.hash()`: injective digest of the block contents, standing in for
keccak of the RLP encoding. -/
def blockHash (b : Block) : Nat :=
  Nat.pair b.header.number
    (Nat.pair b.header.parentHash
      (Nat.pair b.header.difficulty (encodeTxList b.transactions)))

/-- Errors thrown by `ForkBlockchain` (the source throws `Error` with these
messages). -/
inductive Err where
  | blockNotFound
  | invalidBlockNumber
  | invalidParentHash
  | invalidBlock
  | cannotDeleteRemote
  | transactionNotFound
  | shouldNeverHappen
  | notSupported
deriving DecidableEq, Repr

/-- Modelled from the spec: the decoded `RpcBlockWithTransactions` record.
`rpcToBlockData` and the `Block` constructor are not under src/; per the
spec the RBS decodes wire values into a typed record, so we carry the decoded
block directly as the field `block`, alongside the wire-level `hash`,
`number` (absent for pending blocks) and `totalDifficulty` that
`_processRemoteBlock` reads. -/
structure RpcBlockWithTransactions where
  hash : Option Nat
  number : Option Nat
  totalDifficulty : Nat
  block : Block

/-- Modelled from the spec: the decoded `RpcTransaction` record.
`rpcToTxData` and the `Transaction` constructor are not under src/; we carry
the decoded transaction as the field `tx`, alongside the wire-level `hash`,
`blockHash` and `blockNumber` (absent for pending transactions) that
`_processRemoteTransaction` and `getBlockByTransactionHash` read. -/
structure RpcTransaction where
  hash : Nat
  blockHash : Option Nat
  blockNumber : Option Nat
  tx : Transaction

/-- The upstream JSON-RPC client, as the three queries `ForkBlockchain`
issues. -/
structure JsonRpcClient where
  getBlockByNumber : Nat → Option RpcBlockWithTransactions
  getBlockByHash : Nat → Option RpcBlockWithTransactions
  getTransactionByHash : Nat → Option RpcTransaction

/-- The state of a `ForkBlockchain` instance: its five private maps, the
latest block number `L` and the fork block number `F`. -/
structure ForkBlockchain where
  blocksByNumber : Nat → Option Block
  blocksByHash : Nat → Option Block
  totalDifficultyByBlockHash : Nat → Option Nat
  transactions : Nat → Option Transaction
  transactionToBlock : Nat → Option Block
  latestBlockNumber : Nat
  forkBlockNumber : Nat

/-- `Map.set`. -/
def upd {α : Type} (m : Nat → Option α) (k : Nat) (v : α) : Nat → Option α :=
  fun k' => if k' = k then some v else m k'

/-- `Map.delete`. -/
def del {α : Type} (m : Nat → Option α) (k : Nat) : Nat → Option α :=
  fun k' => if k' = k then none else m k'

/-- The freshly constructed store: empty maps and `L = F`. -/
def ForkBlockchain.init (F : Nat) : ForkBlockchain :=
  ⟨fun _ => none, fun _ => none, fun _ => none, fun _ => none, fun _ => none, F, F⟩

/-- Argument of the public `getBlock`: a hash (`Buffer`) or a number. -/
inductive BlockId where
  | hash (h : Nat)
  | number (n : Nat)
deriving DecidableEq, Repr

namespace ForkBlockchain

/-- `_processTransactions`: index every transaction of the block into
`_transactions` and `_transactionToBlock`. -/
def processTransactions (block : Block) : List Transaction → ForkBlockchain → ForkBlockchain
  | [], s => s
  | t :: ts, s =>
      processTransactions block ts
        { s with
          transactions := upd s.transactions (txHash t) t
          transactionToBlock := upd s.transactionToBlock (txHash t) block }

/-- `_processRemoteBlock`: refuse `null` results, wire records without hash
or number, and blocks past the fork height; otherwise install the decoded
block into the three block indexes (total difficulty comes from upstream)
and index its transactions. -/
def processRemoteBlock (rpcBlock : Option RpcBlockWithTransactions)
    (s : ForkBlockchain) : Except Err Block × ForkBlockchain :=
  match rpcBlock with
  | none => (.error .blockNotFound, s)
  | some r =>
    match r.hash, r.number with
    | some rhash, some rnumber =>
      if s.forkBlockNumber < rnumber then (.error .blockNotFound, s)
      else
        let block := r.block
        let s1 := { s with
          blocksByNumber := upd s.blocksByNumber rnumber block
          blocksByHash := upd s.blocksByHash rhash block
          totalDifficultyByBlockHash :=
            upd s.totalDifficultyByBlockHash rhash r.totalDifficulty }
        (.ok block, processTransactions block block.transactions s1)
    | _, _ => (.error .blockNotFound, s)

/-- `_getBlockByHash`: serve from `_blocksByHash`, else demand-load from
upstream. -/
def getBlockByHash (o : JsonRpcClient) (h : Nat) (s : ForkBlockchain) :
    Except Err Block × ForkBlockchain :=
  match s.blocksByHash h with
  | some block => (.ok block, s)
  | none => processRemoteBlock (o.getBlockByHash h) s

/-- `_getBlockByNumber`: numbers above `L` are rejected before anything else;
then serve from `_blocksByNumber`, else demand-load from upstream. -/
def getBlockByNumber (o : JsonRpcClient) (blockNumber : Nat) (s : ForkBlockchain) :
    Except Err Block × ForkBlockchain :=
  if s.latestBlockNumber < blockNumber then (.error .blockNotFound, s)
  else
    match s.blocksByNumber blockNumber with
    | some block => (.ok block, s)
    | none => processRemoteBlock (o.getBlockByNumber blockNumber) s

/-- Public `getBlock`, dispatching on the argument shape. -/
def getBlock (o : JsonRpcClient) (blockHashOrNumber : BlockId) (s : ForkBlockchain) :
    Except Err Block × ForkBlockchain :=
  match blockHashOrNumber with
  | .hash h => getBlockByHash o h s
  | .number n => getBlockByNumber o n s

/-- `getLatestBlock`: `getBlock(this._latestBlockNumber)`. -/
def getLatestBlock (o : JsonRpcClient) (s : ForkBlockchain) :
    Except Err Block × ForkBlockchain :=
  getBlock o (.number s.latestBlockNumber) s

/-- `_computeTotalDifficulty`: a block at height 0 has its own difficulty;
otherwise the parent's stored total difficulty (the parent is looked up by
number, demand-loading it if absent) plus this block's difficulty.  A parent
without a stored total difficulty throws `shouldNeverHappen`. -/
def computeTotalDifficulty (o : JsonRpcClient) (block : Block) (s : ForkBlockchain) :
    Except Err Nat × ForkBlockchain :=
  let difficulty := block.header.difficulty
  let blockNumber := block.header.number
  if blockNumber = 0 then (.ok difficulty, s)
  else
    match s.blocksByNumber (blockNumber - 1) with
    | some parentBlock =>
      match s.totalDifficultyByBlockHash (blockHash parentBlock) with
      | none => (.error .shouldNeverHappen, s)
      | some parentTD => (.ok (parentTD + difficulty), s)
    | none =>
      match getBlockByNumber o (blockNumber - 1) s with
      | (.error e, s') => (.error e, s')
      | (.ok parentBlock, s') =>
        match s'.totalDifficultyByBlockHash (blockHash parentBlock) with
        | none => (.error .shouldNeverHappen, s')
        | some parentTD => (.ok (parentTD + difficulty), s')

/-- `putBlock` (the spec's `appendBlock`): check the number, fetch the latest
block and check the parent hash, then bump `L`, install the block into
`_blocksByNumber`/`_blocksByHash`, store its computed total difficulty and
index its transactions — in exactly the source's mutation order. -/
def putBlock (o : JsonRpcClient) (block : Block) (s : ForkBlockchain) :
    Except Err Block × ForkBlockchain :=
  let blockNumber := block.header.number
  if blockNumber ≠ s.latestBlockNumber + 1 then (.error .invalidBlockNumber, s)
  else
    match getLatestBlock o s with
    | (.error e, s') => (.error e, s')
    | (.ok parent, s') =>
      if block.header.parentHash ≠ blockHash parent then (.error .invalidParentHash, s')
      else
        let s1 := { s' with latestBlockNumber := s'.latestBlockNumber + 1 }
        let s2 := { s1 with
          blocksByNumber := upd s1.blocksByNumber blockNumber block
          blocksByHash := upd s1.blocksByHash (blockHash block) block }
        match computeTotalDifficulty o block s2 with
        | (.error e, s3) => (.error e, s3)
        | (.ok td, s3) =>
          let s4 := { s3 with
            totalDifficultyByBlockHash :=
              upd s3.totalDifficultyByBlockHash (blockHash block) td }
          (.ok block, processTransactions block block.transactions s4)

/-- One loop body of `_delBlock`: drop the block's transactions from
`_transactions` and `_transactionToBlock`. -/
def delTxs : List Transaction → ForkBlockchain → ForkBlockchain
  | [], s => s
  | t :: ts, s =>
      delTxs ts
        { s with
          transactions := del s.transactions (txHash t)
          transactionToBlock := del s.transactionToBlock (txHash t) }

/-- The deletion loop of `_delBlock`: `for (let i = blockNumber;
latest >= i; i++)`, removing height `i` from the three block indexes and its
transactions from the two transaction indexes; a missing height throws
`shouldNeverHappen` mid-loop.  `fuel` only bounds the iteration count;
callers pass `L + 1 - i`, which is exactly enough. -/
def delLoop (L : Nat) : Nat → Nat → ForkBlockchain → Except Err Unit × ForkBlockchain
  | 0, _, s => (.ok (), s)
  | fuel + 1, i, s =>
    if L < i then (.ok (), s)
    else
      match s.blocksByNumber i with
      | none => (.error .shouldNeverHappen, s)
      | some currentBlock =>
        let s' := { s with
          blocksByHash := del s.blocksByHash (blockHash currentBlock)
          blocksByNumber := del s.blocksByNumber i
          totalDifficultyByBlockHash :=
            del s.totalDifficultyByBlockHash (blockHash currentBlock) }
        delLoop L fuel (i + 1) (delTxs currentBlock.transactions s')

/-- `_delBlock` (the spec's `deleteBlock`): look the block up locally (never
upstream — note the absence of an oracle argument), refuse heights at or
below the fork, then delete heights `n .. L` and set `L := n - 1`. -/
def delBlock (h : Nat) (s : ForkBlockchain) : Except Err Unit × ForkBlockchain :=
  match s.blocksByHash h with
  | none => (.error .blockNotFound, s)
  | some block =>
    if block.header.number ≤ s.forkBlockNumber then (.error .cannotDeleteRemote, s)
    else
      let blockNumber := block.header.number
      match delLoop s.latestBlockNumber (s.latestBlockNumber + 1 - blockNumber)
          blockNumber s with
      | (.error e, s') => (.error e, s')
      | (.ok _, s') => (.ok (), { s' with latestBlockNumber := blockNumber - 1 })

/-- `deleteAllFollowingBlocks` (the spec's `deleteLaterBlocks`): the argument
must be the block currently stored at its height; deleting into the remote
region is refused; a missing next height is a no-op; otherwise cascade via
`_delBlock` on the next block's hash. -/
def deleteAllFollowingBlocks (block : Block) (s : ForkBlockchain) :
    Except Err Unit × ForkBlockchain :=
  let blockNumber := block.header.number
  match s.blocksByNumber blockNumber with
  | none => (.error .invalidBlock, s)
  | some savedBlock =>
    if blockHash savedBlock ≠ blockHash block then (.error .invalidBlock, s)
    else
      let nextBlockNumber := blockNumber + 1
      if nextBlockNumber ≤ s.forkBlockNumber then (.error .cannotDeleteRemote, s)
      else
        match s.blocksByNumber nextBlockNumber with
        | none => (.ok (), s)
        | some nextBlock => delBlock (blockHash nextBlock) s

/-- `getBlockTotalDifficulty` (the spec's `getTotalDifficulty`): serve from
the cache, otherwise resolve the block by hash (which populates the cache on
ingestion) and re-read; a still-missing entry throws `shouldNeverHappen`. -/
def getBlockTotalDifficulty (o : JsonRpcClient) (h : Nat) (s : ForkBlockchain) :
    Except Err Nat × ForkBlockchain :=
  match s.totalDifficultyByBlockHash h with
  | some td => (.ok td, s)
  | none =>
    match getBlockByHash o h s with
    | (.error e, s') => (.error e, s')
    | (.ok _, s') =>
      match s'.totalDifficultyByBlockHash h with
      | none => (.error .shouldNeverHappen, s')
      | some td => (.ok td, s')

/-- `_processRemoteTransaction`: refuse `null` results, pending transactions
(no block number) and transactions mined past the fork height; otherwise
install the decoded transaction into `_transactions` only. -/
def processRemoteTransaction (rpcTransaction : Option RpcTransaction)
    (s : ForkBlockchain) : Except Err Transaction × ForkBlockchain :=
  match rpcTransaction with
  | none => (.error .transactionNotFound, s)
  | some r =>
    match r.blockNumber with
    | none => (.error .transactionNotFound, s)
    | some bn =>
      if s.forkBlockNumber < bn then (.error .transactionNotFound, s)
      else (.ok r.tx, { s with transactions := upd s.transactions r.hash r.tx })

/-- `getTransaction`: serve from `_transactions`, else fetch from upstream
and run the remote-transaction ingestion rule. -/
def getTransaction (o : JsonRpcClient) (transactionHash : Nat) (s : ForkBlockchain) :
    Except Err Transaction × ForkBlockchain :=
  match s.transactions transactionHash with
  | some tx => (.ok tx, s)
  | none => processRemoteTransaction (o.getTransactionByHash transactionHash) s

/-- `getBlockByTransactionHash`: serve from `_transactionToBlock`; else
ingest the remote transaction, and if it carries a block hash also ingest
that block (which indexes the transaction into `_transactionToBlock`), then
re-read; a still-missing binding throws `transactionNotFound`. -/
def getBlockByTransactionHash (o : JsonRpcClient) (transactionHash : Nat)
    (s : ForkBlockchain) : Except Err Block × ForkBlockchain :=
  match s.transactionToBlock transactionHash with
  | some block => (.ok block, s)
  | none =>
    let remote := o.getTransactionByHash transactionHash
    match processRemoteTransaction remote s with
    | (.error e, s') => (.error e, s')
    | (.ok _, s') =>
      match remote with
      | none => (.error .transactionNotFound, s')
      | some r =>
        match r.blockHash with
        | none =>
          match s'.transactionToBlock transactionHash with
          | none => (.error .transactionNotFound, s')
          | some block => (.ok block, s')
        | some bh =>
          match getBlockByHash o bh s' with
          | (.error e, s'') => (.error e, s'')
          | (.ok _, s'') =>
            match s''.transactionToBlock transactionHash with
            | none => (.error .transactionNotFound, s'')
            | some block => (.ok block, s'')

/-- `iterator`: intentionally not supported. -/
def iterator (s : ForkBlockchain) : Except Err Unit × ForkBlockchain :=
  (.error .notSupported, s)

end ForkBlockchain

/-- The upstream contract of §6 and §4.1 of the spec: an honest JSON-RPC
endpoint returns, for a by-number query, the canonical block at that number,
and for a by-hash query, the block whose contents hash to the queried digest;
the wire-level `hash` and `number` agree with the decoded block.  The store
trusts this and the spec's reachable-state invariants presuppose it. -/
structure Honest (o : JsonRpcClient) : Prop where
  byNumber : ∀ n r, o.getBlockByNumber n = some r →
    r.number = some n ∧ r.hash = some (blockHash r.block) ∧ r.block.header.number = n
  byHash : ∀ h r, o.getBlockByHash h = some r →
    r.hash = some h ∧ blockHash r.block = h ∧
    (∀ rn, r.number = some rn → r.block.header.number = rn)

/-- States of the store reachable from construction through its public
operations, each step driven by an arbitrary honest upstream. -/
inductive Reachable : ForkBlockchain → Prop where
  | init (F : Nat) : Reachable (ForkBlockchain.init F)
  | stepGetBlock (s : ForkBlockchain) (o : JsonRpcClient) (k : BlockId) :
      Reachable s → Honest o → Reachable (ForkBlockchain.getBlock o k s).2
  | stepGetLatestBlock (s : ForkBlockchain) (o : JsonRpcClient) :
      Reachable s → Honest o → Reachable (ForkBlockchain.getLatestBlock o s).2
  | stepPutBlock (s : ForkBlockchain) (o : JsonRpcClient) (b : Block) :
      Reachable s → Honest o → Reachable (ForkBlockchain.putBlock o b s).2
  | stepDelBlock (s : ForkBlockchain) (h : Nat) :
      Reachable s → Reachable (ForkBlockchain.delBlock h s).2
  | stepDeleteAllFollowingBlocks (s : ForkBlockchain) (b : Block) :
      Reachable s → Reachable (ForkBlockchain.deleteAllFollowingBlocks b s).2
  | stepGetBlockTotalDifficulty (s : ForkBlockchain) (o : JsonRpcClient) (h : Nat) :
      Reachable s → Honest o → Reachable (ForkBlockchain.getBlockTotalDifficulty o h s).2
  | stepGetTransaction (s : ForkBlockchain) (o : JsonRpcClient) (h : Nat) :
      Reachable s → Reachable (ForkBlockchain.getTransaction o h s).2
  | stepGetBlockByTransactionHash (s : ForkBlockchain) (o : JsonRpcClient) (h : Nat) :
      Reachable s → Honest o → Reachable (ForkBlockchain.getBlockByTransactionHash o h s).2

/-! ## Concrete blocks, states and oracles used in witnesses and counterexamples -/

/-- A concrete fork-base block at height 0 with difficulty 5. -/
def wG : Block := ⟨⟨0, 0, 5⟩, []⟩

/-- A concrete transaction. -/
def wT1 : Transaction := ⟨41⟩

/-- A concrete local block at height 1 on top of `wG`, carrying `wT1`. -/
def wB1 : Block := ⟨⟨1, blockHash wG, 3⟩, [wT1]⟩

/-- A second concrete transaction. -/
def wT2 : Transaction := ⟨42⟩

/-- A concrete local block at height 2 on top of `wB1`, carrying `wT2`. -/
def wB2 : Block := ⟨⟨2, blockHash wB1, 4⟩, [wT2]⟩

/-- An upstream that answers every query with `null`. -/
def oNone : JsonRpcClient := ⟨fun _ => none, fun _ => none, fun _ => none⟩

/-- A store at `F = L = 0` with the fork base `wG` cached (total difficulty 5). -/
def sG : ForkBlockchain :=
  { blocksByNumber := fun n => if n = 0 then some wG else none
    blocksByHash := fun h => if h = blockHash wG then some wG else none
    totalDifficultyByBlockHash := fun h => if h = blockHash wG then some 5 else none
    transactions := fun _ => none
    transactionToBlock := fun _ => none
    latestBlockNumber := 0
    forkBlockNumber := 0 }

/-- Like `sG`, but `wT1` has additionally been fetched out of band via
`getTransaction`: it sits in `_transactions` with no `_transactionToBlock`
binding. -/
def sPre : ForkBlockchain :=
  { blocksByNumber := fun n => if n = 0 then some wG else none
    blocksByHash := fun h => if h = blockHash wG then some wG else none
    totalDifficultyByBlockHash := fun h => if h = blockHash wG then some 5 else none
    transactions := fun k => if k = txHash wT1 then some wT1 else none
    transactionToBlock := fun _ => none
    latestBlockNumber := 0
    forkBlockNumber := 0 }

/-- A store at `F = 0`, `L = 2` holding `wG`, `wB1`, `wB2` and their
transactions. -/
def sDel : ForkBlockchain :=
  { blocksByNumber := fun n =>
      if n = 0 then some wG else if n = 1 then some wB1 else
      if n = 2 then some wB2 else none
    blocksByHash := fun h =>
      if h = blockHash wG then some wG else if h = blockHash wB1 then some wB1 else
      if h = blockHash wB2 then some wB2 else none
    totalDifficultyByBlockHash := fun h =>
      if h = blockHash wG then some 5 else if h = blockHash wB1 then some 8 else
      if h = blockHash wB2 then some 12 else none
    transactions := fun k =>
      if k = txHash wT1 then some wT1 else if k = txHash wT2 then some wT2 else none
    transactionToBlock := fun k =>
      if k = txHash wT1 then some wB1 else if k = txHash wT2 then some wB2 else none
    latestBlockNumber := 2
    forkBlockNumber := 0 }

/-- `sDel` with the fork height raised to 2, so all three blocks are in the
remote region. -/
def sDelF2 : ForkBlockchain :=
  { sDel with forkBlockNumber := 2 }

/-- A block with a parent hash matching no stored block (`1` is not the hash
of `wG`). -/
def c10Block : Block := ⟨⟨1, 1, 3⟩, []⟩

/-- A block with the wrong height for appending onto `sG`. -/
def c3BadNum : Block := ⟨⟨5, 0, 0⟩, []⟩

/-- A block at height 1 distinct from `wB1` (different difficulty). -/
def c9Other : Block := ⟨⟨1, blockHash wG, 99⟩, []⟩

/-- An upstream serving the fork base `wG` at height 0, with consistent wire
fields. -/
def oG : JsonRpcClient :=
  ⟨fun n => if n = 0 then some ⟨some (blockHash wG), some 0, 5, wG⟩ else none,
   fun _ => none, fun _ => none⟩

/-- A remote block at height 3 whose upstream-reported total difficulty (999)
ignores any parent. -/
def cB3 : Block := ⟨⟨3, 777, 7⟩, []⟩

/-- The wire record for `cB3` with upstream total difficulty 999. -/
def c7rpc : RpcBlockWithTransactions := ⟨some (blockHash cB3), some 3, 999, cB3⟩

/-- An honest upstream serving only height 3. -/
def c7Oracle : JsonRpcClient :=
  ⟨fun n => if n = 3 then some c7rpc else none, fun _ => none, fun _ => none⟩

/-- The store obtained by demand-loading block 3 from `c7Oracle` into a fresh
fork at `F = 5`. -/
def c7State : ForkBlockchain :=
  (ForkBlockchain.getBlock c7Oracle (.number 3) (ForkBlockchain.init 5)).2

/-- A remote block at height 7 (beyond a fork at `F = 0`). -/
def cB7 : Block := ⟨⟨7, 0, 1⟩, []⟩

/-- The wire record for `cB7`. -/
def c5rpc : RpcBlockWithTransactions := ⟨some (blockHash cB7), some 7, 50, cB7⟩

/-- An upstream serving `cB7` by number and by hash. -/
def c5Oracle : JsonRpcClient :=
  ⟨fun n => if n = 7 then some c5rpc else none,
   fun h => if h = blockHash cB7 then some c5rpc else none,
   fun _ => none⟩

/-- An empty store whose local view nonetheless extends to `L = 10` with
`F = 0` (only used to exercise lookup paths). -/
def sHigh : ForkBlockchain :=
  { blocksByNumber := fun _ => none
    blocksByHash := fun _ => none
    totalDifficultyByBlockHash := fun _ => none
    transactions := fun _ => none
    transactionToBlock := fun _ => none
    latestBlockNumber := 10
    forkBlockNumber := 0 }

/-- A concrete transaction for the `getTransaction` witnesses. -/
def c8t : Transaction := ⟨70⟩

/-- A wire transaction mined at height 0 (within the fork). -/
def c8mined : RpcTransaction := ⟨70, some 123, some 0, c8t⟩

/-- A pending wire transaction (no block number). -/
def c8pending : RpcTransaction := ⟨71, none, none, ⟨71⟩⟩

/-- A wire transaction mined past the fork height. -/
def c8high : RpcTransaction := ⟨72, some 124, some 9, ⟨72⟩⟩

/-- An upstream serving the three wire transactions above. -/
def c8Oracle : JsonRpcClient :=
  ⟨fun _ => none, fun _ => none,
   fun k =>
     if k = 70 then some c8mined else if k = 71 then some c8pending else
     if k = 72 then some c8high else none⟩

/-- The store left by the mutation phase of a successful `putBlock`: `L`
bumped, the block installed in the three block indexes with total difficulty
`td0`, and its transactions indexed. -/
def putBlockState (s : ForkBlockchain) (b : Block) (td0 : Nat) : ForkBlockchain :=
  ForkBlockchain.processTransactions b b.transactions
    { s with
      latestBlockNumber := s.latestBlockNumber + 1
      blocksByNumber := upd s.blocksByNumber b.header.number b
      blocksByHash := upd s.blocksByHash (blockHash b) b
      totalDifficultyByBlockHash :=
        upd s.totalDifficultyByBlockHash (blockHash b) td0 }

/-- The store left by one iteration of the `_delBlock` loop removing block
`b` found at height `i`. -/
def delBlockStep (s : ForkBlockchain) (b : Block) (i : Nat) : ForkBlockchain :=
  ForkBlockchain.delTxs b.transactions
    { s with
      blocksByHash := del s.blocksByHash (blockHash b)
      blocksByNumber := del s.blocksByNumber i
      totalDifficultyByBlockHash :=
        del s.totalDifficultyByBlockHash (blockHash b) }

/-! ## Basic lemmas about the map primitives and hash injectivity -/

theorem upd_self {α : Type} (m : Nat → Option α) (k : Nat) (v : α) : upd m k v k = some v := by
  simp [upd]

theorem upd_ne {α : Type} (m : Nat → Option α) (k k' : Nat) (v : α) (h : k' ≠ k) :
    upd m k v k' = m k' := by
  simp [upd, h]

theorem upd_ne_none {α : Type} (m : Nat → Option α) (k k' : Nat) (v : α)
    (h : m k' ≠ none) : upd m k v k' ≠ none := by
  by_cases hk : k' = k <;> simp [upd, hk, h]

theorem del_self {α : Type} (m : Nat → Option α) (k : Nat) : del m k k = none := by
  simp [del]

theorem del_ne {α : Type} (m : Nat → Option α) (k k' : Nat) (h : k' ≠ k) :
    del m k k' = m k' := by
  simp [del, h]

theorem del_upd_cancel {α : Type} (m : Nat → Option α) (k : Nat) (v : α)
    (h : m k = none) : del (upd m k v) k = m := by
  funext k'
  by_cases hk : k' = k
  · subst hk; simp [del, h]
  · simp [del, upd, hk]

theorem encodeTxList_inj : ∀ l1 l2 : List Transaction,
    encodeTxList l1 = encodeTxList l2 → l1 = l2 := by
  intro l1
  induction l1 with
  | nil =>
    intro l2 h
    cases l2 with
    | nil => rfl
    | cons t ts => simp [encodeTxList] at h
  | cons t ts ih =>
    intro l2 h
    cases l2 with
    | nil => simp [encodeTxList] at h
    | cons t' ts' =>
      simp only [encodeTxList, Nat.add_right_cancel_iff] at h
      rcases Nat.pair_eq_pair.mp h with ⟨h1, h2⟩
      cases t; cases t'
      simp only [txHash] at h1
      simp [h1, ih _ h2]

theorem blockHash_inj : ∀ b1 b2 : Block, blockHash b1 = blockHash b2 → b1 = b2 := by
  intro b1 b2 h
  simp only [blockHash, Nat.pair_eq_pair] at h
  obtain ⟨h1, h2, h3, h4⟩ := h
  cases b1 with
  | mk hd1 txs1 =>
    cases b2 with
    | mk hd2 txs2 =>
      cases hd1; cases hd2
      simp only at h1 h2 h3 h4
      subst h1; subst h2; subst h3
      rw [encodeTxList_inj _ _ h4]

namespace ForkBlockchain

/-! ## Lemmas about `processTransactions` and `delTxs` -/

theorem processTransactions_blocks_eq (b : Block) :
    ∀ (ts : List Transaction) (s : ForkBlockchain),
      (processTransactions b ts s).blocksByNumber = s.blocksByNumber ∧
      (processTransactions b ts s).blocksByHash = s.blocksByHash ∧
      (processTransactions b ts s).totalDifficultyByBlockHash = s.totalDifficultyByBlockHash ∧
      (processTransactions b ts s).latestBlockNumber = s.latestBlockNumber ∧
      (processTransactions b ts s).forkBlockNumber = s.forkBlockNumber := by
  intro ts
  induction ts with
  | nil => intro s; simp [processTransactions]
  | cons t ts ih => intro s; simpa [processTransactions] using ih _

theorem processTransactions_tx_notmem (b : Block) :
    ∀ (ts : List Transaction) (s : ForkBlockchain) (k : Nat),
      (∀ t ∈ ts, txHash t ≠ k) →
      (processTransactions b ts s).transactions k = s.transactions k ∧
      (processTransactions b ts s).transactionToBlock k = s.transactionToBlock k := by
  intro ts
  induction ts with
  | nil => intro s k _; simp [processTransactions]
  | cons t ts ih =>
    intro s k hk
    have hne : k ≠ txHash t := fun h => hk t (by simp) h.symm
    have := ih
      { s with
        transactions := upd s.transactions (txHash t) t
        transactionToBlock := upd s.transactionToBlock (txHash t) b }
      k (fun t' ht' => hk t' (by simp [ht']))
    simp only [processTransactions]
    rw [this.1, this.2]
    simp [upd_ne _ _ _ _ hne]

theorem processTransactions_tx_mem (b : Block) :
    ∀ (ts : List Transaction) (s : ForkBlockchain),
      (ts.map txHash).Nodup →
      ∀ t ∈ ts,
        (processTransactions b ts s).transactions (txHash t) = some t ∧
        (processTransactions b ts s).transactionToBlock (txHash t) = some b := by
  intro ts
  induction ts with
  | nil => intro s _ t ht; cases ht
  | cons t0 ts ih =>
    intro s hnd t ht
    simp only [List.map_cons, List.nodup_cons] at hnd
    rcases List.mem_cons.mp ht with h | h
    · subst h
      have hnot : ∀ t' ∈ ts, txHash t' ≠ txHash t := by
        intro t' ht' heq
        exact hnd.1 (heq ▸ List.mem_map_of_mem txHash ht')
      have := processTransactions_tx_notmem b ts
        { s with
          transactions := upd s.transactions (txHash t) t
          transactionToBlock := upd s.transactionToBlock (txHash t) b }
        (txHash t) hnot
      simp only [processTransactions]
      rw [this.1, this.2]
      simp [upd_self]
    · exact ih _ hnd.2 t h

theorem processTransactions_tx_any (b : Block) :
    ∀ (ts : List Transaction) (s : ForkBlockchain) (k : Nat),
      (processTransactions b ts s).transactions k = s.transactions k ∨
      ∃ t ∈ ts, txHash t = k ∧ (processTransactions b ts s).transactions k = some t := by
  intro ts
  induction ts with
  | nil => intro s k; left; rfl
  | cons t0 ts ih =>
    intro s k
    rcases ih { s with
        transactions := upd s.transactions (txHash t0) t0
        transactionToBlock := upd s.transactionToBlock (txHash t0) b } k with h | ⟨t, ht, hk, hv⟩
    · by_cases hk : k = txHash t0
      · right
        exact ⟨t0, by simp, hk.symm, by simp only [processTransactions]; rw [h]; simp [upd, hk]⟩
      · left
        simp only [processTransactions]
        rw [h]
        simp [upd_ne _ _ _ _ hk]
    · right
      exact ⟨t, by simp [ht], hk, by simpa [processTransactions] using hv⟩

theorem delTxs_blocks_eq :
    ∀ (ts : List Transaction) (s : ForkBlockchain),
      (delTxs ts s).blocksByNumber = s.blocksByNumber ∧
      (delTxs ts s).blocksByHash = s.blocksByHash ∧
      (delTxs ts s).totalDifficultyByBlockHash = s.totalDifficultyByBlockHash ∧
      (delTxs ts s).latestBlockNumber = s.latestBlockNumber ∧
      (delTxs ts s).forkBlockNumber = s.forkBlockNumber := by
  intro ts
  induction ts with
  | nil => intro s; simp [delTxs]
  | cons t ts ih => intro s; simpa [delTxs] using ih _

theorem delTxs_tx_notmem :
    ∀ (ts : List Transaction) (s : ForkBlockchain) (k : Nat),
      (∀ t ∈ ts, txHash t ≠ k) →
      (delTxs ts s).transactions k = s.transactions k ∧
      (delTxs ts s).transactionToBlock k = s.transactionToBlock k := by
  intro ts
  induction ts with
  | nil => intro s k _; simp [delTxs]
  | cons t ts ih =>
    intro s k hk
    have hne : k ≠ txHash t := fun h => hk t (by simp) h.symm
    have := ih
      { s with
        transactions := del s.transactions (txHash t)
        transactionToBlock := del s.transactionToBlock (txHash t) }
      k (fun t' ht' => hk t' (by simp [ht']))
    simp only [delTxs]
    rw [this.1, this.2]
    simp [del_ne _ _ _ hne]

theorem delTxs_none_mono :
    ∀ (ts : List Transaction) (s : ForkBlockchain) (k : Nat),
      (s.transactions k = none → (delTxs ts s).transactions k = none) ∧
      (s.transactionToBlock k = none → (delTxs ts s).transactionToBlock k = none) := by
  intro ts
  induction ts with
  | nil => intro s k; simp [delTxs]
  | cons t ts ih =>
    intro s k
    constructor
    · intro h
      refine (ih _ k).1 ?_
      by_cases hk : k = txHash t <;> simp [del, hk, h]
    · intro h
      refine (ih _ k).2 ?_
      by_cases hk : k = txHash t <;> simp [del, hk, h]

theorem delTxs_tx_mem :
    ∀ (ts : List Transaction) (s : ForkBlockchain) (t : Transaction), t ∈ ts →
      (delTxs ts s).transactions (txHash t) = none ∧
      (delTxs ts s).transactionToBlock (txHash t) = none := by
  intro ts
  induction ts with
  | nil => intro s t ht; cases ht
  | cons t0 ts ih =>
    intro s t ht
    rcases List.mem_cons.mp ht with h | h
    · subst h
      have := delTxs_none_mono ts
        { s with
          transactions := del s.transactions (txHash t)
          transactionToBlock := del s.transactionToBlock (txHash t) } (txHash t)
      exact ⟨this.1 (by simp [del]), this.2 (by simp [del])⟩
    · exact ih _ t h

end ForkBlockchain

namespace ForkBlockchain

/-! ## Characterization of a successful `putBlock` (cached parent) -/

theorem putBlock_ok (o : JsonRpcClient) (s : ForkBlockchain) (b p : Block) (ptd : Nat)
    (hp : s.blocksByNumber s.latestBlockNumber = some p)
    (hptd : s.totalDifficultyByBlockHash (blockHash p) = some ptd)
    (hn : b.header.number = s.latestBlockNumber + 1)
    (hph : b.header.parentHash = blockHash p) :
    putBlock o b s = (.ok b,
      processTransactions b b.transactions
        { s with
          latestBlockNumber := s.latestBlockNumber + 1
          blocksByNumber := upd s.blocksByNumber b.header.number b
          blocksByHash := upd s.blocksByHash (blockHash b) b
          totalDifficultyByBlockHash :=
            upd s.totalDifficultyByBlockHash (blockHash b) (ptd + b.header.difficulty) }) := by
  have h0 : ¬ s.latestBlockNumber < s.latestBlockNumber := lt_irrefl _
  have h1 : ¬ (b.header.number ≠ s.latestBlockNumber + 1) := by simp [hn]
  have h2 : ¬ (b.header.parentHash ≠ blockHash p) := by simp [hph]
  have h3 : ¬ (b.header.number = 0) := by simp [hn]
  have h4 : b.header.number - 1 ≠ b.header.number := by omega
  have h5 : b.header.number - 1 = s.latestBlockNumber := by omega
  have h6 : s.latestBlockNumber ≠ b.header.number := by omega
  simp only [putBlock, getLatestBlock, getBlock, getBlockByNumber, if_neg h0, hp,
    if_neg h1, if_neg h2, computeTotalDifficulty, if_neg h3]
  simp only [upd_ne _ _ _ _ h4, h5, upd_ne _ _ _ _ h6, hp, hptd]

/-! ## Lemmas about the deletion loop of `_delBlock` -/

theorem del_none_keep {α : Type} (m : Nat → Option α) (j k : Nat) (h : m k = none) :
    del m j k = none := by
  by_cases hk : k = j <;> simp [del, hk, h]

theorem delLoop_none_mono (L : Nat) : ∀ (fuel i : Nat) (s : ForkBlockchain) (k : Nat),
    (s.blocksByNumber k = none → (delLoop L fuel i s).2.blocksByNumber k = none) ∧
    (s.blocksByHash k = none → (delLoop L fuel i s).2.blocksByHash k = none) ∧
    (s.totalDifficultyByBlockHash k = none →
      (delLoop L fuel i s).2.totalDifficultyByBlockHash k = none) ∧
    (s.transactions k = none → (delLoop L fuel i s).2.transactions k = none) ∧
    (s.transactionToBlock k = none → (delLoop L fuel i s).2.transactionToBlock k = none) := by
  intro fuel
  induction fuel with
  | zero => intro i s k; simp [delLoop]
  | succ fuel ih =>
    intro i s k
    simp only [delLoop]
    by_cases hLi : L < i
    · simp [hLi]
    · simp only [if_neg hLi]
      cases hbn : s.blocksByNumber i with
      | none => simp
      | some cb =>
        have hbe := delTxs_blocks_eq cb.transactions
          { s with
            blocksByHash := del s.blocksByHash (blockHash cb)
            blocksByNumber := del s.blocksByNumber i
            totalDifficultyByBlockHash :=
              del s.totalDifficultyByBlockHash (blockHash cb) }
        have hmono := delTxs_none_mono cb.transactions
          { s with
            blocksByHash := del s.blocksByHash (blockHash cb)
            blocksByNumber := del s.blocksByNumber i
            totalDifficultyByBlockHash :=
              del s.totalDifficultyByBlockHash (blockHash cb) } k
        have hrec := ih (i + 1)
          (delTxs cb.transactions
            { s with
              blocksByHash := del s.blocksByHash (blockHash cb)
              blocksByNumber := del s.blocksByNumber i
              totalDifficultyByBlockHash :=
                del s.totalDifficultyByBlockHash (blockHash cb) }) k
    
        refine ⟨?_, ?_, ?_, ?_, ?_⟩
        · intro hk
          exact hrec.1 (by rw [hbe.1]; exact del_none_keep _ _ _ hk)
        · intro hk
          exact hrec.2.1 (by rw [hbe.2.1]; exact del_none_keep _ _ _ hk)
        · intro hk
          exact hrec.2.2.1 (by rw [hbe.2.2.1]; exact del_none_keep _ _ _ hk)
        · intro hk
          exact hrec.2.2.2.1 (hmono.1 hk)
        · intro hk
          exact hrec.2.2.2.2 (hmono.2 hk)

theorem delLoop_spec (L : Nat) : ∀ (fuel i : Nat) (s : ForkBlockchain),
    L + 1 - i ≤ fuel →
    (∀ j, i ≤ j → j ≤ L → s.blocksByNumber j ≠ none) →
    ∃ S, delLoop L fuel i s = (.ok (), S) ∧
      S.latestBlockNumber = s.latestBlockNumber ∧
      S.forkBlockNumber = s.forkBlockNumber ∧
      ∀ j, i ≤ j → j ≤ L →
        S.blocksByNumber j = none ∧
        ∀ b, s.blocksByNumber j = some b →
          S.blocksByHash (blockHash b) = none ∧
          S.totalDifficultyByBlockHash (blockHash b) = none ∧
          ∀ t ∈ b.transactions,
            S.transactions (txHash t) = none ∧ S.transactionToBlock (txHash t) = none := by
  intro fuel
  induction fuel with
  | zero =>
    intro i s hfuel _
    refine ⟨s, by simp [delLoop], rfl, rfl, ?_⟩
    intro j hij hjL
    omega
  | succ fuel ih =>
    intro i s hfuel hcont
    by_cases hLi : L < i
    · refine ⟨s, by simp [delLoop, hLi], rfl, rfl, ?_⟩
      intro j hij hjL
      omega
    · cases hbn : s.blocksByNumber i with
      | none => exact absurd hbn (hcont i le_rfl (by omega))
      | some cb =>
        set s1 : ForkBlockchain :=
          { s with
            blocksByHash := del s.blocksByHash (blockHash cb)
            blocksByNumber := del s.blocksByNumber i
            totalDifficultyByBlockHash :=
              del s.totalDifficultyByBlockHash (blockHash cb) } with hs1
        set s2 : ForkBlockchain := delTxs cb.transactions s1 with hs2
        have hbe := delTxs_blocks_eq cb.transactions s1
        have hnum2 : ∀ j, j ≠ i → s2.blocksByNumber j = s.blocksByNumber j := by
          intro j hj
          rw [hbe.1]
          exact del_ne _ _ _ hj
        obtain ⟨S, hS, hSL, hSF, hprops⟩ := ih (i + 1) s2
          (by omega)
          (by
            intro j hij hjL
            rw [hnum2 j (by omega)]
            exact hcont j (by omega) hjL)
        have hmono := delLoop_none_mono L fuel (i + 1) s2
        simp only [hS] at hmono
        refine ⟨S, ?_, ?_, ?_, ?_⟩
        · simp only [delLoop, if_neg hLi, hbn]
          exact hS
        · rw [hSL, hbe.2.2.2.1]
        · rw [hSF, hbe.2.2.2.2]
        · intro j hij hjL
          rcases Nat.eq_or_lt_of_le hij with rfl | hji
          · constructor
            · exact (hmono i).1 (by rw [hbe.1]; exact del_self _ _)
            · intro b hb
              have hbcb : b = cb := (Option.some.inj (hbn ▸ hb)).symm
              subst hbcb
              refine ⟨(hmono (blockHash b)).2.1 (by rw [hbe.2.1]; exact del_self _ _),
                (hmono (blockHash b)).2.2.1 (by rw [hbe.2.2.1]; exact del_self _ _), ?_⟩
              intro t ht
              have hdel := delTxs_tx_mem b.transactions s1 t ht
              exact ⟨(hmono (txHash t)).2.2.2.1 hdel.1, (hmono (txHash t)).2.2.2.2 hdel.2⟩
          · have hj := hprops j (by omega) hjL
            refine ⟨hj.1, ?_⟩
            intro b hb
            exact hj.2 b (by rw [hnum2 j (by omega)]; exact hb)

/-- Successful `_delBlock`: full effect description used by the `delBlock`
and `deleteAllFollowingBlocks` theorems. -/
theorem delBlock_ok (s : ForkBlockchain) (h : Nat) (b : Block)
    (hb : s.blocksByHash h = some b)
    (hF : s.forkBlockNumber < b.header.number)
    (hcont : ∀ j, b.header.number ≤ j → j ≤ s.latestBlockNumber →
      s.blocksByNumber j ≠ none) :
    ∃ S, delBlock h s = (.ok (), S) ∧
      S.latestBlockNumber = b.header.number - 1 ∧
      S.forkBlockNumber = s.forkBlockNumber ∧
      ∀ j, b.header.number ≤ j → j ≤ s.latestBlockNumber →
        S.blocksByNumber j = none ∧
        ∀ b', s.blocksByNumber j = some b' →
          S.blocksByHash (blockHash b') = none ∧
          S.totalDifficultyByBlockHash (blockHash b') = none ∧
          ∀ t ∈ b'.transactions,
            S.transactions (txHash t) = none ∧ S.transactionToBlock (txHash t) = none := by
  obtain ⟨S, hS, hSL, hSF, hprops⟩ := delLoop_spec s.latestBlockNumber
    (s.latestBlockNumber + 1 - b.header.number) b.header.number s le_rfl hcont
  refine ⟨{ S with latestBlockNumber := b.header.number - 1 }, ?_, rfl, hSF, ?_⟩
  · simp only [delBlock, hb, if_neg (not_le.mpr hF), hS]
  · intro j hij hjL
    exact hprops j hij hjL

end ForkBlockchain

namespace ForkBlockchain

/-! ## The cross-index invariant behind `getBlockTotalDifficulty` -/

/-- Consistency of the block indexes that the store maintains in every
reachable state: every block indexed by number has a stored total difficulty
under its hash, every key of `_blocksByHash` is also a key of
`_totalDifficultyByBlockHash`, and blocks sit at their own height. -/
def Inv (s : ForkBlockchain) : Prop :=
  (∀ n b, s.blocksByNumber n = some b →
    s.totalDifficultyByBlockHash (blockHash b) ≠ none) ∧
  (∀ h, s.blocksByHash h ≠ none → s.totalDifficultyByBlockHash h ≠ none) ∧
  (∀ n b, s.blocksByNumber n = some b → b.header.number = n)

theorem Inv_transfer (s s' : ForkBlockchain)
    (h1 : s'.blocksByNumber = s.blocksByNumber)
    (h2 : s'.blocksByHash = s.blocksByHash)
    (h3 : s'.totalDifficultyByBlockHash = s.totalDifficultyByBlockHash)
    (hs : Inv s) : Inv s' := by
  refine ⟨?_, ?_, ?_⟩
  · intro n b hb
    rw [h1] at hb
    rw [h3]
    exact hs.1 n b hb
  · intro h hh
    rw [h2] at hh
    rw [h3]
    exact hs.2.1 h hh
  · intro n b hb
    rw [h1] at hb
    exact hs.2.2 n b hb

theorem processRemoteBlock_frame (rpc : Option RpcBlockWithTransactions)
    (s : ForkBlockchain) :
    (processRemoteBlock rpc s).2.latestBlockNumber = s.latestBlockNumber ∧
    (processRemoteBlock rpc s).2.forkBlockNumber = s.forkBlockNumber := by
  cases rpc with
  | none => simp [processRemoteBlock]
  | some r =>
    cases hh : r.hash with
    | none => simp [processRemoteBlock, hh]
    | some rhash =>
      cases hn : r.number with
      | none => simp [processRemoteBlock, hh, hn]
      | some rnumber =>
        by_cases hF : s.forkBlockNumber < rnumber
        · simp [processRemoteBlock, hh, hn, hF]
        · have := processTransactions_blocks_eq r.block r.block.transactions
            { s with
              blocksByNumber := upd s.blocksByNumber rnumber r.block
              blocksByHash := upd s.blocksByHash rhash r.block
              totalDifficultyByBlockHash :=
                upd s.totalDifficultyByBlockHash rhash r.totalDifficulty }
          simp only [processRemoteBlock, hh, hn, if_neg hF]
          exact ⟨this.2.2.2.1, this.2.2.2.2⟩

theorem processRemoteBlock_inv (rpc : Option RpcBlockWithTransactions)
    (s : ForkBlockchain)
    (hr : ∀ r, rpc = some r → r.hash = some (blockHash r.block) ∧
      (∀ rn, r.number = some rn → r.block.header.number = rn))
    (hs : Inv s) : Inv (processRemoteBlock rpc s).2 := by
  cases rpc with
  | none => simpa [processRemoteBlock] using hs
  | some r =>
    obtain ⟨hrh, hrn⟩ := hr r rfl
    cases hh : r.hash with
    | none => simpa [processRemoteBlock, hh] using hs
    | some rhash =>
      cases hn : r.number with
      | none => simpa [processRemoteBlock, hh, hn] using hs
      | some rnumber =>
        by_cases hF : s.forkBlockNumber < rnumber
        · simpa [processRemoteBlock, hh, hn, hF] using hs
        · have hkey : rhash = blockHash r.block := by
            rw [hh] at hrh
            exact Option.some.inj hrh
          have hnum : r.block.header.number = rnumber := hrn rnumber hn
          set s1 : ForkBlockchain :=
            { s with
              blocksByNumber := upd s.blocksByNumber rnumber r.block
              blocksByHash := upd s.blocksByHash rhash r.block
              totalDifficultyByBlockHash :=
                upd s.totalDifficultyByBlockHash rhash r.totalDifficulty } with hs1
          have hbe := processTransactions_blocks_eq r.block r.block.transactions s1
          have hinv1 : Inv s1 := by
            rw [hs1]
            refine ⟨?_, ?_, ?_⟩
            · intro n b hb
              simp only [upd] at hb ⊢
              by_cases hkn : n = rnumber
              · simp only [if_pos hkn] at hb
                have hbr : b = r.block := (Option.some.inj hb).symm
                subst hbr
                simp [← hkey]
              · simp only [if_neg hkn] at hb
                have := hs.1 n b hb
                by_cases hbk : blockHash b = rhash <;> simp [hbk, this]
            · intro h hhh
              simp only [upd] at hhh ⊢
              by_cases hkh : h = rhash
              · simp [hkh]
              · simp only [if_neg hkh] at hhh
                have := hs.2.1 h hhh
                simp [hkh, this]
            · intro n b hb
              simp only [upd] at hb
              by_cases hkn : n = rnumber
              · simp only [if_pos hkn] at hb
                have hbr : b = r.block := (Option.some.inj hb).symm
                rw [hbr, hnum, hkn]
              · simp only [if_neg hkn] at hb
                exact hs.2.2 n b hb
          simp only [processRemoteBlock, hh, hn, if_neg hF]
          exact Inv_transfer _ _ hbe.1 hbe.2.1 hbe.2.2.1 hinv1

end ForkBlockchain

namespace ForkBlockchain

theorem getBlockByNumber_frame (o : JsonRpcClient) (n : Nat) (s : ForkBlockchain) :
    (getBlockByNumber o n s).2.latestBlockNumber = s.latestBlockNumber ∧
    (getBlockByNumber o n s).2.forkBlockNumber = s.forkBlockNumber := by
  simp only [getBlockByNumber]
  by_cases hL : s.latestBlockNumber < n
  · simp [hL]
  · simp only [if_neg hL]
    cases hbn : s.blocksByNumber n with
    | some blk => simp
    | none => exact processRemoteBlock_frame _ _

theorem getBlockByNumber_inv (o : JsonRpcClient) (hon : Honest o) (n : Nat)
    (s : ForkBlockchain) (hs : Inv s) : Inv (getBlockByNumber o n s).2 := by
  simp only [getBlockByNumber]
  by_cases hL : s.latestBlockNumber < n
  · simpa [hL] using hs
  · simp only [if_neg hL]
    cases hbn : s.blocksByNumber n with
    | some blk => simpa using hs
    | none =>
      refine processRemoteBlock_inv _ _ ?_ hs
      intro r hr
      obtain ⟨h1, h2, h3⟩ := hon.byNumber n r hr
      refine ⟨h2, ?_⟩
      intro rn hrn
      rw [h1] at hrn
      rw [← Option.some.inj hrn]
      exact h3

theorem getBlockByHash_inv (o : JsonRpcClient) (hon : Honest o) (h : Nat)
    (s : ForkBlockchain) (hs : Inv s) : Inv (getBlockByHash o h s).2 := by
  simp only [getBlockByHash]
  cases hbh : s.blocksByHash h with
  | some blk => simpa using hs
  | none =>
    refine processRemoteBlock_inv _ _ ?_ hs
    intro r hr
    obtain ⟨h1, h2, h3⟩ := hon.byHash h r hr
    exact ⟨by rw [h1, h2], h3⟩

theorem getBlock_inv (o : JsonRpcClient) (hon : Honest o) (k : BlockId)
    (s : ForkBlockchain) (hs : Inv s) : Inv (getBlock o k s).2 := by
  cases k with
  | hash h => exact getBlockByHash_inv o hon h s hs
  | number n => exact getBlockByNumber_inv o hon n s hs

theorem getLatestBlock_inv (o : JsonRpcClient) (hon : Honest o)
    (s : ForkBlockchain) (hs : Inv s) : Inv (getLatestBlock o s).2 :=
  getBlock_inv o hon _ s hs

theorem getBlockByNumber_ok (o : JsonRpcClient) (hon : Honest o) (n : Nat)
    (s : ForkBlockchain) (b' : Block) (s' : ForkBlockchain)
    (hE : getBlockByNumber o n s = (.ok b', s')) :
    s'.blocksByNumber n = some b' := by
  simp only [getBlockByNumber] at hE
  by_cases hL : s.latestBlockNumber < n
  · simp [hL] at hE
  · simp only [if_neg hL] at hE
    cases hbn : s.blocksByNumber n with
    | some blk =>
      rw [hbn] at hE
      simp only [Prod.mk.injEq] at hE
      obtain ⟨hb, hs'⟩ := hE
      rw [← hs', hbn, Except.ok.inj hb]
    | none =>
      rw [hbn] at hE
      cases hrpc : o.getBlockByNumber n with
      | none =>
        rw [hrpc] at hE
        simp [processRemoteBlock] at hE
      | some r =>
        rw [hrpc] at hE
        obtain ⟨h1, h2, h3⟩ := hon.byNumber n r hrpc
        simp only [processRemoteBlock, h1, h2] at hE
        by_cases hF : s.forkBlockNumber < n
        · simp [hF] at hE
        · simp only [if_neg hF, Prod.mk.injEq] at hE
          obtain ⟨hb, hs'⟩ := hE
          rw [← hs', (processTransactions_blocks_eq r.block r.block.transactions _).1]
          show upd s.blocksByNumber n r.block n = some b'
          rw [upd_self, Except.ok.inj hb]

/-- Full characterization of a successful `putBlock`, with the state `s'`
left by the `getLatestBlock` call. -/
theorem putBlock_succ_char (o : JsonRpcClient) (s : ForkBlockchain) (b parent : Block)
    (s' : ForkBlockchain) (ptd : Nat)
    (hn : b.header.number = s.latestBlockNumber + 1)
    (hgl : getLatestBlock o s = (.ok parent, s'))
    (hph : b.header.parentHash = blockHash parent)
    (hok : s'.blocksByNumber s.latestBlockNumber = some parent)
    (hptd : s'.totalDifficultyByBlockHash (blockHash parent) = some ptd) :
    putBlock o b s = (.ok b,
      processTransactions b b.transactions
        { s' with
          latestBlockNumber := s'.latestBlockNumber + 1
          blocksByNumber := upd s'.blocksByNumber b.header.number b
          blocksByHash := upd s'.blocksByHash (blockHash b) b
          totalDifficultyByBlockHash :=
            upd s'.totalDifficultyByBlockHash (blockHash b) (ptd + b.header.difficulty) }) := by
  have h1 : ¬ (b.header.number ≠ s.latestBlockNumber + 1) := by simp [hn]
  have h2 : ¬ (b.header.parentHash ≠ blockHash parent) := by simp [hph]
  have h3 : ¬ (b.header.number = 0) := by simp [hn]
  have h4 : b.header.number - 1 ≠ b.header.number := by omega
  have h5 : b.header.number - 1 = s.latestBlockNumber := by omega
  have h6 : s.latestBlockNumber ≠ b.header.number := by omega
  simp only [putBlock, if_neg h1, hgl, if_neg h2, computeTotalDifficulty, if_neg h3]
  simp only [upd_ne _ _ _ _ h4, h5, upd_ne _ _ _ _ h6, hok, hptd]

theorem putBlock_inv (o : JsonRpcClient) (hon : Honest o) (b : Block)
    (s : ForkBlockchain) (hs : Inv s) : Inv (putBlock o b s).2 := by
  by_cases h1 : b.header.number ≠ s.latestBlockNumber + 1
  · simpa [putBlock, h1] using hs
  · have heq : b.header.number = s.latestBlockNumber + 1 := not_not.mp h1
    rcases hgl : getLatestBlock o s with ⟨res, s'⟩
    have hinv' : Inv s' := by
      have := getLatestBlock_inv o hon s hs
      rw [hgl] at this
      exact this
    cases res with
    | error e => simpa [putBlock, if_neg h1, hgl] using hinv'
    | ok parent =>
      by_cases h2 : b.header.parentHash ≠ blockHash parent
      · simpa [putBlock, if_neg h1, hgl, h2] using hinv'
      · have hph : b.header.parentHash = blockHash parent := not_not.mp h2
        have hok : s'.blocksByNumber s.latestBlockNumber = some parent :=
          getBlockByNumber_ok o hon s.latestBlockNumber s parent s' hgl
        obtain ⟨ptd, hptd⟩ := Option.ne_none_iff_exists'.mp (hinv'.1 _ _ hok)
        rw [putBlock_succ_char o s b parent s' ptd heq hgl hph hok hptd]
        have hbe := processTransactions_blocks_eq b b.transactions
          { s' with
            latestBlockNumber := s'.latestBlockNumber + 1
            blocksByNumber := upd s'.blocksByNumber b.header.number b
            blocksByHash := upd s'.blocksByHash (blockHash b) b
            totalDifficultyByBlockHash :=
              upd s'.totalDifficultyByBlockHash (blockHash b) (ptd + b.header.difficulty) }
        refine Inv_transfer _ _ hbe.1 hbe.2.1 hbe.2.2.1 ?_
        refine ⟨?_, ?_, ?_⟩
        · intro n bb hb
          simp only [upd] at hb ⊢
          by_cases hkn : n = b.header.number
          · simp only [if_pos hkn] at hb
            have hbb : bb = b := (Option.some.inj hb).symm
            subst hbb
            simp
          · simp only [if_neg hkn] at hb
            have := hinv'.1 n bb hb
            by_cases hbk : blockHash bb = blockHash b <;> simp [hbk, this]
        · intro h hhh
          simp only [upd] at hhh ⊢
          by_cases hkh : h = blockHash b
          · simp [hkh]
          · simp only [if_neg hkh] at hhh
            have := hinv'.2.1 h hhh
            simp [hkh, this]
        · intro n bb hb
          simp only [upd] at hb
          by_cases hkn : n = b.header.number
          · simp only [if_pos hkn] at hb
            have hbb : bb = b := (Option.some.inj hb).symm
            rw [hbb, hkn]
          · simp only [if_neg hkn] at hb
            exact hinv'.2.2 n bb hb

theorem delLoop_inv (L : Nat) : ∀ (fuel i : Nat) (s : ForkBlockchain),
    Inv s → Inv (delLoop L fuel i s).2 := by
  intro fuel
  induction fuel with
  | zero => intro i s hs; simpa [delLoop] using hs
  | succ fuel ih =>
    intro i s hs
    by_cases hLi : L < i
    · simpa [delLoop, hLi] using hs
    · simp only [delLoop, if_neg hLi]
      cases hbn : s.blocksByNumber i with
      | none => simpa using hs
      | some cb =>
        set s1 : ForkBlockchain :=
          { s with
            blocksByHash := del s.blocksByHash (blockHash cb)
            blocksByNumber := del s.blocksByNumber i
            totalDifficultyByBlockHash :=
              del s.totalDifficultyByBlockHash (blockHash cb) } with hs1
        have hinv1 : Inv s1 := by
          rw [hs1]
          refine ⟨?_, ?_, ?_⟩
          · intro n bb hb
            simp only [del] at hb ⊢
            by_cases hkn : n = i
            · simp [if_pos hkn] at hb
            · simp only [if_neg hkn] at hb
              have hne : blockHash bb ≠ blockHash cb := by
                intro hcol
                have : bb = cb := blockHash_inj _ _ hcol
                subst this
                exact hkn ((hs.2.2 n bb hb).symm.trans (hs.2.2 i bb hbn))
              simp only [if_neg hne]
              exact hs.1 n bb hb
          · intro h hhh
            simp only [del] at hhh ⊢
            by_cases hkh : h = blockHash cb
            · simp [if_pos hkh] at hhh
            · simp only [if_neg hkh] at hhh ⊢
              exact hs.2.1 h hhh
          · intro n bb hb
            simp only [del] at hb
            by_cases hkn : n = i
            · simp [if_pos hkn] at hb
            · simp only [if_neg hkn] at hb
              exact hs.2.2 n bb hb
        have hbe := delTxs_blocks_eq cb.transactions s1
        exact ih (i + 1) _ (Inv_transfer _ _ hbe.1 hbe.2.1 hbe.2.2.1 hinv1)

theorem delBlock_inv (h : Nat) (s : ForkBlockchain) (hs : Inv s) :
    Inv (delBlock h s).2 := by
  simp only [delBlock]
  cases hbh : s.blocksByHash h with
  | none => simpa using hs
  | some blk =>
    by_cases hF : blk.header.number ≤ s.forkBlockNumber
    · simpa [hF] using hs
    · simp only [if_neg hF]
      rcases hdl : delLoop s.latestBlockNumber
        (s.latestBlockNumber + 1 - blk.header.number) blk.header.number s with ⟨res, s'⟩
      have hinv' : Inv s' := by
        have := delLoop_inv s.latestBlockNumber
          (s.latestBlockNumber + 1 - blk.header.number) blk.header.number s hs
        rw [hdl] at this
        exact this
      cases res with
      | error e => simpa using hinv'
      | ok u => exact Inv_transfer _ _ rfl rfl rfl hinv'

theorem deleteAllFollowingBlocks_inv (b : Block) (s : ForkBlockchain) (hs : Inv s) :
    Inv (deleteAllFollowingBlocks b s).2 := by
  simp only [deleteAllFollowingBlocks]
  cases hbn : s.blocksByNumber b.header.number with
  | none => simpa using hs
  | some saved =>
    by_cases hh : blockHash saved ≠ blockHash b
    · simpa [hh] using hs
    · simp only [if_neg hh]
      by_cases hF : b.header.number + 1 ≤ s.forkBlockNumber
      · simpa [hF] using hs
      · simp only [if_neg hF]
        cases hnx : s.blocksByNumber (b.header.number + 1) with
        | none => simpa using hs
        | some nb => exact delBlock_inv _ s hs

theorem processRemoteTransaction_blocks_eq (rpc : Option RpcTransaction)
    (s : ForkBlockchain) :
    (processRemoteTransaction rpc s).2.blocksByNumber = s.blocksByNumber ∧
    (processRemoteTransaction rpc s).2.blocksByHash = s.blocksByHash ∧
    (processRemoteTransaction rpc s).2.totalDifficultyByBlockHash =
      s.totalDifficultyByBlockHash ∧
    (processRemoteTransaction rpc s).2.latestBlockNumber = s.latestBlockNumber ∧
    (processRemoteTransaction rpc s).2.forkBlockNumber = s.forkBlockNumber := by
  cases rpc with
  | none => simp [processRemoteTransaction]
  | some r =>
    cases hbn : r.blockNumber with
    | none => simp [processRemoteTransaction, hbn]
    | some bn =>
      by_cases hF : s.forkBlockNumber < bn
      · simp [processRemoteTransaction, hbn, hF]
      · simp [processRemoteTransaction, hbn, hF]

theorem getTransaction_inv (o : JsonRpcClient) (h : Nat) (s : ForkBlockchain)
    (hs : Inv s) : Inv (getTransaction o h s).2 := by
  simp only [getTransaction]
  cases htx : s.transactions h with
  | some tx => simpa using hs
  | none =>
    have hbe := processRemoteTransaction_blocks_eq (o.getTransactionByHash h) s
    exact Inv_transfer _ _ hbe.1 hbe.2.1 hbe.2.2.1 hs

theorem getBlockTotalDifficulty_inv (o : JsonRpcClient) (hon : Honest o) (h : Nat)
    (s : ForkBlockchain) (hs : Inv s) : Inv (getBlockTotalDifficulty o h s).2 := by
  simp only [getBlockTotalDifficulty]
  cases htd : s.totalDifficultyByBlockHash h with
  | some td => simpa using hs
  | none =>
    rcases hgb : getBlockByHash o h s with ⟨res, s'⟩
    have hinv' : Inv s' := by
      have := getBlockByHash_inv o hon h s hs
      rw [hgb] at this
      exact this
    cases res with
    | error e => simpa using hinv'
    | ok blk =>
      cases htd' : s'.totalDifficultyByBlockHash h with
      | none => simpa [htd'] using hinv'
      | some td => simpa [htd'] using hinv'

theorem getBlockByTransactionHash_inv (o : JsonRpcClient) (hon : Honest o) (h : Nat)
    (s : ForkBlockchain) (hs : Inv s) : Inv (getBlockByTransactionHash o h s).2 := by
  simp only [getBlockByTransactionHash]
  cases htb : s.transactionToBlock h with
  | some blk => simpa using hs
  | none =>
    rcases hpr : processRemoteTransaction (o.getTransactionByHash h) s with ⟨res, s'⟩
    have hinv' : Inv s' := by
      have hbe := processRemoteTransaction_blocks_eq (o.getTransactionByHash h) s
      rw [hpr] at hbe
      exact Inv_transfer _ _ hbe.1 hbe.2.1 hbe.2.2.1 hs
    cases res with
    | error e => simpa using hinv'
    | ok tx =>
      cases hrm : o.getTransactionByHash h with
      | none => simpa using hinv'
      | some r =>
        cases hbh : r.blockHash with
        | none =>
          cases htb' : s'.transactionToBlock h with
          | none => simpa [hbh, htb'] using hinv'
          | some blk => simpa [hbh, htb'] using hinv'
        | some bh =>
          rcases hgb : getBlockByHash o bh s' with ⟨res2, s''⟩
          have hinv'' : Inv s'' := by
            have := getBlockByHash_inv o hon bh s' hinv'
            rw [hgb] at this
            exact this
          cases res2 with
          | error e => simpa [hbh, hgb] using hinv''
          | ok blk =>
            cases htb'' : s''.transactionToBlock h with
            | none => simpa [hbh, hgb, htb''] using hinv''
            | some blk2 => simpa [hbh, hgb, htb''] using hinv''

/-- Every reachable state satisfies the cross-index invariant. -/
theorem Reachable_inv (s : ForkBlockchain) (hs : Reachable s) : Inv s := by
  induction hs with
  | init F =>
    refine ⟨?_, ?_, ?_⟩
    · intro n b hb
      simp [ForkBlockchain.init] at hb
    · intro h hh
      simp [ForkBlockchain.init] at hh
    · intro n b hb
      simp [ForkBlockchain.init] at hb
  | stepGetBlock s o k hr hon ih => exact getBlock_inv o hon k s ih
  | stepGetLatestBlock s o hr hon ih => exact getLatestBlock_inv o hon s ih
  | stepPutBlock s o b hr hon ih => exact putBlock_inv o hon b s ih
  | stepDelBlock s h hr ih => exact delBlock_inv h s ih
  | stepDeleteAllFollowingBlocks s b hr ih => exact deleteAllFollowingBlocks_inv b s ih
  | stepGetBlockTotalDifficulty s o h hr hon ih => exact getBlockTotalDifficulty_inv o hon h s ih
  | stepGetTransaction s o h hr ih => exact getTransaction_inv o h s ih
  | stepGetBlockByTransactionHash s o h hr hon ih => exact getBlockByTransactionHash_inv o hon h s ih

/-- In an `Inv` state with an honest upstream, `getBlockTotalDifficulty` can
never reach its `shouldNeverHappen` branch. -/
theorem getBlockTotalDifficulty_ne_snh (o : JsonRpcClient) (hon : Honest o) (h : Nat)
    (s : ForkBlockchain) (hs : Inv s) :
    (getBlockTotalDifficulty o h s).1 ≠ .error .shouldNeverHappen := by
  simp only [getBlockTotalDifficulty]
  cases htd : s.totalDifficultyByBlockHash h with
  | some td => simp
  | none =>
    simp only [getBlockByHash]
    cases hbh : s.blocksByHash h with
    | some blk =>
      exact absurd htd (by simpa using hs.2.1 h (by simp [hbh]))
    | none =>
      cases hrpc : o.getBlockByHash h with
      | none => simp [processRemoteBlock]
      | some r =>
        obtain ⟨h1, h2, h3⟩ := hon.byHash h r hrpc
        simp only [processRemoteBlock, h1]
        cases hn : r.number with
        | none => simp
        | some rn =>
          by_cases hF : s.forkBlockNumber < rn
          · simp [hF]
          · simp only [if_neg hF]
            have hre := processTransactions_blocks_eq r.block r.block.transactions
              { s with
                blocksByNumber := upd s.blocksByNumber rn r.block
                blocksByHash := upd s.blocksByHash h r.block
                totalDifficultyByBlockHash :=
                  upd s.totalDifficultyByBlockHash h r.totalDifficulty }
            rw [hre.2.2.1]
            show (match upd s.totalDifficultyByBlockHash h r.totalDifficulty h with
              | none => (Except.error Err.shouldNeverHappen, _)
              | some td => (Except.ok td, _)).1 ≠ Except.error Err.shouldNeverHappen
            rw [upd_self]
            simp

end ForkBlockchain

/-! ## Claim theorems -/

/-- C4: for every number `n` with `n > L`, `getBlock(n)` returns absent
(`Block not found`) and makes no upstream call — the oracle is universally
quantified and the state is returned untouched, so no query result is ever
consulted. -/
theorem C4_getBlock_above_latest (s : ForkBlockchain) (n : Nat)
    (h : s.latestBlockNumber < n) :
    (∀ o, ForkBlockchain.getBlockByNumber o n s = (.error .blockNotFound, s)) ∧
    (∀ o, ForkBlockchain.getBlock o (.number n) s = (.error .blockNotFound, s)) := by
  constructor <;> intro o <;>
    simp [ForkBlockchain.getBlock, ForkBlockchain.getBlockByNumber, h]

/-- Witness for C4 at a concrete store (`L = 0`) and number 5. -/
theorem C4_witness :
    sG.latestBlockNumber < 5 ∧
    ForkBlockchain.getBlockByNumber oNone 5 sG = (.error .blockNotFound, sG) ∧
    ForkBlockchain.getBlock oNone (.number 5) sG = (.error .blockNotFound, sG) := by
  have happ := C4_getBlock_above_latest sG 5 (by decide)
  exact ⟨by decide, happ.1 oNone, happ.2 oNone⟩

/-- C5: a remote block whose reported number exceeds `F` is refused by the
ingestion rule: `getBlock` (by hash or by number) returns absent and the
store is left exactly as it was — nothing is installed into any index. -/
theorem C5_remote_above_fork (s : ForkBlockchain) :
    (∀ (o : JsonRpcClient) (h : Nat) (r : RpcBlockWithTransactions) (rn : Nat),
      s.blocksByHash h = none → o.getBlockByHash h = some r →
      r.number = some rn → s.forkBlockNumber < rn →
      ForkBlockchain.getBlockByHash o h s = (.error .blockNotFound, s)) ∧
    (∀ (o : JsonRpcClient) (n : Nat) (r : RpcBlockWithTransactions) (rn : Nat),
      n ≤ s.latestBlockNumber → s.blocksByNumber n = none →
      o.getBlockByNumber n = some r → r.number = some rn → s.forkBlockNumber < rn →
      ForkBlockchain.getBlockByNumber o n s = (.error .blockNotFound, s)) ∧
    (∀ (rpc : Option RpcBlockWithTransactions) (r : RpcBlockWithTransactions) (rn : Nat),
      rpc = some r → r.number = some rn → s.forkBlockNumber < rn →
      ForkBlockchain.processRemoteBlock rpc s = (.error .blockNotFound, s)) := by
  have hcore : ∀ (rpc : Option RpcBlockWithTransactions) (r : RpcBlockWithTransactions)
      (rn : Nat), rpc = some r → r.number = some rn → s.forkBlockNumber < rn →
      ForkBlockchain.processRemoteBlock rpc s = (.error .blockNotFound, s) := by
    intro rpc r rn hrpc hrn hF
    subst hrpc
    cases hh : r.hash with
    | none => simp [ForkBlockchain.processRemoteBlock, hh, hrn]
    | some rhash => simp [ForkBlockchain.processRemoteBlock, hh, hrn, hF]
  refine ⟨?_, ?_, hcore⟩
  · intro o h r rn hbh ho hrn hF
    simp only [ForkBlockchain.getBlockByHash, hbh]
    exact hcore _ r rn ho hrn hF
  · intro o n r rn hn hbn ho hrn hF
    simp only [ForkBlockchain.getBlockByNumber, if_neg (not_lt.mpr hn), hbn]
    exact hcore _ r rn ho hrn hF

/-- Witness for C5: `c5Oracle` reports block 7 past the fork (`F = 0`); both
lookup paths return absent with the store unchanged. -/
theorem C5_witness :
    sHigh.blocksByHash (blockHash cB7) = none ∧
    c5Oracle.getBlockByHash (blockHash cB7) = some c5rpc ∧
    c5rpc.number = some 7 ∧ sHigh.forkBlockNumber < 7 ∧
    ForkBlockchain.getBlockByHash c5Oracle (blockHash cB7) sHigh =
      (.error .blockNotFound, sHigh) ∧
    ForkBlockchain.getBlockByNumber c5Oracle 7 sHigh =
      (.error .blockNotFound, sHigh) := by
  have happ := C5_remote_above_fork sHigh
  refine ⟨rfl, ?_, rfl, by decide, ?_, ?_⟩
  · simp [c5Oracle]
  · exact happ.1 c5Oracle (blockHash cB7) c5rpc 7 rfl (by simp [c5Oracle]) rfl (by decide)
  · exact happ.2.1 c5Oracle 7 c5rpc 7 (by decide) rfl (by simp [c5Oracle]) rfl (by decide)

/-- C8: for a transaction hash not in `_transactions`, `getTransaction`
returns absent on a pending-only upstream record or one mined past `F`;
otherwise it returns the decoded transaction and installs it into
`_transactions` only — the resulting state differs from `s` in no other
field, in particular `_transactionToBlock` is untouched. -/
theorem C8_getTransaction_spec (o : JsonRpcClient) (s : ForkBlockchain) (h : Nat)
    (htx : s.transactions h = none) :
    (∀ r, o.getTransactionByHash h = some r → r.blockNumber = none →
      ForkBlockchain.getTransaction o h s = (.error .transactionNotFound, s)) ∧
    (∀ r bn, o.getTransactionByHash h = some r → r.blockNumber = some bn →
      s.forkBlockNumber < bn →
      ForkBlockchain.getTransaction o h s = (.error .transactionNotFound, s)) ∧
    (∀ r bn, o.getTransactionByHash h = some r → r.blockNumber = some bn →
      bn ≤ s.forkBlockNumber →
      ForkBlockchain.getTransaction o h s =
        (.ok r.tx, { s with transactions := upd s.transactions r.hash r.tx })) := by
  refine ⟨?_, ?_, ?_⟩
  · intro r hr hbn
    simp [ForkBlockchain.getTransaction, htx, hr,
      ForkBlockchain.processRemoteTransaction, hbn]
  · intro r bn hr hbn hF
    simp [ForkBlockchain.getTransaction, htx, hr,
      ForkBlockchain.processRemoteTransaction, hbn, hF]
  · intro r bn hr hbn hF
    simp [ForkBlockchain.getTransaction, htx, hr,
      ForkBlockchain.processRemoteTransaction, hbn, if_neg (not_lt.mpr hF)]

/-- Witness for C8: the three upstream shapes served by `c8Oracle` against
the concrete store `sG` (`F = 0`). -/
theorem C8_witness :
    sG.transactions 70 = none ∧
    ForkBlockchain.getTransaction c8Oracle 71 sG = (.error .transactionNotFound, sG) ∧
    ForkBlockchain.getTransaction c8Oracle 72 sG = (.error .transactionNotFound, sG) ∧
    ForkBlockchain.getTransaction c8Oracle 70 sG =
      (.ok c8t, { sG with transactions := upd sG.transactions 70 c8t }) := by
  refine ⟨rfl, ?_, ?_, ?_⟩
  · exact (C8_getTransaction_spec c8Oracle sG 71 rfl).1 c8pending (by simp [c8Oracle]) rfl
  · exact (C8_getTransaction_spec c8Oracle sG 72 rfl).2.1 c8high 9
      (by simp [c8Oracle]) rfl (by decide)
  · exact (C8_getTransaction_spec c8Oracle sG 70 rfl).2.2 c8mined 0
      (by simp [c8Oracle]) rfl (by decide)

/-- C2: `_delBlock(h)` (the spec's `deleteBlock`) raises `Block not found`
when `h` is unknown locally (the operation takes no upstream client at all,
so upstream is never consulted); raises `Cannot delete remote block` for a
block at height `≤ F`; and otherwise, with `n` the block's height and the
heights `n .. L` all present (as they are in every reachable store), removes
each of those heights from `_blocksByNumber`, removes those blocks from
`_blocksByHash` and `_totalDifficultyByBlockHash`, removes their transactions
from `_transactions` and `_transactionToBlock`, and sets `L` to `n - 1`. -/
theorem C2_delBlock_spec (s : ForkBlockchain) (h : Nat) :
    (s.blocksByHash h = none →
      ForkBlockchain.delBlock h s = (.error .blockNotFound, s)) ∧
    (∀ b, s.blocksByHash h = some b → b.header.number ≤ s.forkBlockNumber →
      ForkBlockchain.delBlock h s = (.error .cannotDeleteRemote, s)) ∧
    (∀ b, s.blocksByHash h = some b → s.forkBlockNumber < b.header.number →
      (∀ j, b.header.number ≤ j → j ≤ s.latestBlockNumber →
        s.blocksByNumber j ≠ none) →
      ∃ S, ForkBlockchain.delBlock h s = (.ok (), S) ∧
        S.latestBlockNumber = b.header.number - 1 ∧
        ∀ j, b.header.number ≤ j → j ≤ s.latestBlockNumber →
          S.blocksByNumber j = none ∧
          ∀ b', s.blocksByNumber j = some b' →
            S.blocksByHash (blockHash b') = none ∧
            S.totalDifficultyByBlockHash (blockHash b') = none ∧
            ∀ t ∈ b'.transactions,
              S.transactions (txHash t) = none ∧
              S.transactionToBlock (txHash t) = none) := by
  refine ⟨?_, ?_, ?_⟩
  · intro hb
    simp [ForkBlockchain.delBlock, hb]
  · intro b hb hF
    simp [ForkBlockchain.delBlock, hb, hF]
  · intro b hb hF hcont
    obtain ⟨S, hS, hSL, _, hprops⟩ := ForkBlockchain.delBlock_ok s h b hb hF hcont
    exact ⟨S, hS, hSL, hprops⟩

/-- Witness for C2: on the concrete three-block store `sDel`, an unknown
hash, the remote fork base, and the cascade from height 1. -/
theorem C2_witness :
    sDel.blocksByHash 999 = none ∧
    ForkBlockchain.delBlock 999 sDel = (.error .blockNotFound, sDel) ∧
    ForkBlockchain.delBlock (blockHash wG) sDel = (.error .cannotDeleteRemote, sDel) ∧
    ∃ S, ForkBlockchain.delBlock (blockHash wB1) sDel = (.ok (), S) ∧
      S.latestBlockNumber = 0 ∧ S.blocksByNumber 1 = none ∧ S.blocksByNumber 2 = none ∧
      S.transactions (txHash wT1) = none ∧ S.transactionToBlock (txHash wT2) = none := by
  refine ⟨by decide, ?_, ?_, ?_⟩
  · exact (C2_delBlock_spec sDel 999).1 (by decide)
  · exact (C2_delBlock_spec sDel (blockHash wG)).2.1 wG (by decide) (by decide)
  · obtain ⟨S, hS, hSL, hprops⟩ :=
      (C2_delBlock_spec sDel (blockHash wB1)).2.2 wB1 (by decide) (by decide)
        (by
          intro j h1 h2
          have h1' : 1 ≤ j := h1
          have h2' : j ≤ 2 := h2
          interval_cases j <;> decide)
    have h1 := hprops 1 (by decide) (by decide)
    have h2 := hprops 2 (by decide) (by decide)
    refine ⟨S, hS, hSL, h1.1, h2.1, ?_, ?_⟩
    · exact ((h1.2 wB1 (by decide)).2.2 wT1 (by decide)).1
    · exact ((h2.2 wB2 (by decide)).2.2 wT2 (by decide)).2

/-- C9: `deleteAllFollowingBlocks(b)` (the spec's `deleteLaterBlocks`) raises
`Invalid block` when no block, or a different block, is stored at `b`'s
height; raises `Cannot delete remote block` when height `b.number + 1` lies
at or below `F`; succeeds as a no-op when no block is stored at
`b.number + 1`; and otherwise deletes the block at that next height together
with every later one, via the `_delBlock` cascade. -/
theorem C9_deleteAllFollowingBlocks_spec (s : ForkBlockchain) (b : Block) :
    (s.blocksByNumber b.header.number = none →
      ForkBlockchain.deleteAllFollowingBlocks b s = (.error .invalidBlock, s)) ∧
    (∀ saved, s.blocksByNumber b.header.number = some saved →
      blockHash saved ≠ blockHash b →
      ForkBlockchain.deleteAllFollowingBlocks b s = (.error .invalidBlock, s)) ∧
    (∀ saved, s.blocksByNumber b.header.number = some saved →
      blockHash saved = blockHash b → b.header.number + 1 ≤ s.forkBlockNumber →
      ForkBlockchain.deleteAllFollowingBlocks b s = (.error .cannotDeleteRemote, s)) ∧
    (∀ saved, s.blocksByNumber b.header.number = some saved →
      blockHash saved = blockHash b → s.forkBlockNumber < b.header.number + 1 →
      s.blocksByNumber (b.header.number + 1) = none →
      ForkBlockchain.deleteAllFollowingBlocks b s = (.ok (), s)) ∧
    (∀ saved nb, s.blocksByNumber b.header.number = some saved →
      blockHash saved = blockHash b → s.forkBlockNumber < b.header.number + 1 →
      s.blocksByNumber (b.header.number + 1) = some nb →
      s.blocksByHash (blockHash nb) = some nb →
      nb.header.number = b.header.number + 1 →
      (∀ j, b.header.number + 1 ≤ j → j ≤ s.latestBlockNumber →
        s.blocksByNumber j ≠ none) →
      ∃ S, ForkBlockchain.deleteAllFollowingBlocks b s = (.ok (), S) ∧
        S.latestBlockNumber = b.header.number ∧
        ∀ j, b.header.number + 1 ≤ j → j ≤ s.latestBlockNumber →
          S.blocksByNumber j = none ∧
          ∀ b', s.blocksByNumber j = some b' →
            S.blocksByHash (blockHash b') = none ∧
            S.totalDifficultyByBlockHash (blockHash b') = none ∧
            ∀ t ∈ b'.transactions,
              S.transactions (txHash t) = none ∧
              S.transactionToBlock (txHash t) = none) := by
  refine ⟨?_, ?_, ?_, ?_, ?_⟩
  · intro hb
    simp [ForkBlockchain.deleteAllFollowingBlocks, hb]
  · intro saved hb hne
    simp [ForkBlockchain.deleteAllFollowingBlocks, hb, hne]
  · intro saved hb heq hF
    simp [ForkBlockchain.deleteAllFollowingBlocks, hb, heq, hF]
  · intro saved hb heq hF hnx
    simp [ForkBlockchain.deleteAllFollowingBlocks, hb, heq, if_neg (not_le.mpr hF), hnx]
  · intro saved nb hb heq hF hnx hnbh hnbn hcont
    have hF' : s.forkBlockNumber < nb.header.number := by omega
    have hcont' : ∀ j, nb.header.number ≤ j → j ≤ s.latestBlockNumber →
        s.blocksByNumber j ≠ none := by
      intro j h1 h2
      exact hcont j (by omega) h2
    obtain ⟨S, hS, hSL, _, hprops⟩ :=
      ForkBlockchain.delBlock_ok s (blockHash nb) nb hnbh hF' hcont'
    refine ⟨S, ?_, by omega, ?_⟩
    · simp only [ForkBlockchain.deleteAllFollowingBlocks, hb, heq,
        if_neg (not_le.mpr hF), hnx]
      rw [if_neg (by simp)]
      exact hS
    · intro j h1 h2
      exact hprops j (by omega) h2

/-- Witness for C9: the four error/no-op branches and the cascade on
concrete stores. -/
theorem C9_witness :
    ForkBlockchain.deleteAllFollowingBlocks c3BadNum sDel = (.error .invalidBlock, sDel) ∧
    ForkBlockchain.deleteAllFollowingBlocks c9Other sDel = (.error .invalidBlock, sDel) ∧
    ForkBlockchain.deleteAllFollowingBlocks wG sDelF2 = (.error .cannotDeleteRemote, sDelF2) ∧
    ForkBlockchain.deleteAllFollowingBlocks wB2 sDel = (.ok (), sDel) ∧
    ∃ S, ForkBlockchain.deleteAllFollowingBlocks wB1 sDel = (.ok (), S) ∧
      S.latestBlockNumber = 1 ∧ S.blocksByNumber 2 = none := by
  refine ⟨?_, ?_, ?_, ?_, ?_⟩
  · exact (C9_deleteAllFollowingBlocks_spec sDel c3BadNum).1 (by decide)
  · exact (C9_deleteAllFollowingBlocks_spec sDel c9Other).2.1 wB1 (by decide) (by decide)
  · exact (C9_deleteAllFollowingBlocks_spec sDelF2 wG).2.2.1 wG (by decide) rfl (by decide)
  · exact (C9_deleteAllFollowingBlocks_spec sDel wB2).2.2.2.1 wB2 (by decide) rfl
      (by decide) (by decide)
  · obtain ⟨S, hS, hSL, hprops⟩ :=
      (C9_deleteAllFollowingBlocks_spec sDel wB1).2.2.2.2 wB1 wB2 (by decide) rfl
        (by decide) (by decide) (by decide) (by decide)
        (by
          intro j h1 h2
          have h1' : 2 ≤ j := h1
          have h2' : j ≤ 2 := h2
          interval_cases j
          decide)
    exact ⟨S, hS, hSL, (hprops 2 (by decide) (by decide)).1⟩

/-- C3: `putBlock(b)` (the spec's `appendBlock`) first checks
`b.header.number = L + 1` and raises `Invalid block number` otherwise (for
any oracle and before touching anything); then compares `b.header.parentHash`
with the latest block's hash and raises `Invalid parent hash` on mismatch;
and otherwise bumps `L`, installs `b` into `_blocksByNumber`, `_blocksByHash`
and `_totalDifficultyByBlockHash`, and indexes `b`'s transactions into
`_transactions` and `_transactionToBlock`.  Stated for a store whose latest
block `p` is cached with its total difficulty `ptd`, and for blocks with
distinct transaction hashes. -/
theorem C3_putBlock_spec (o : JsonRpcClient) (s : ForkBlockchain) (b p : Block)
    (ptd : Nat)
    (hp : s.blocksByNumber s.latestBlockNumber = some p)
    (hptd : s.totalDifficultyByBlockHash (blockHash p) = some ptd)
    (hnd : (b.transactions.map txHash).Nodup) :
    (b.header.number ≠ s.latestBlockNumber + 1 →
      ForkBlockchain.putBlock o b s = (.error .invalidBlockNumber, s)) ∧
    (b.header.number = s.latestBlockNumber + 1 →
      b.header.parentHash ≠ blockHash p →
      ForkBlockchain.putBlock o b s = (.error .invalidParentHash, s)) ∧
    (b.header.number = s.latestBlockNumber + 1 →
      b.header.parentHash = blockHash p →
      ∃ S, ForkBlockchain.putBlock o b s = (.ok b, S) ∧
        S.latestBlockNumber = s.latestBlockNumber + 1 ∧
        S.blocksByNumber (s.latestBlockNumber + 1) = some b ∧
        S.blocksByHash (blockHash b) = some b ∧
        S.totalDifficultyByBlockHash (blockHash b) = some (ptd + b.header.difficulty) ∧
        ∀ t ∈ b.transactions,
          S.transactions (txHash t) = some t ∧
          S.transactionToBlock (txHash t) = some b) := by
  have h0 : ¬ s.latestBlockNumber < s.latestBlockNumber := lt_irrefl _
  refine ⟨?_, ?_, ?_⟩
  · intro hn
    simp [ForkBlockchain.putBlock, hn]
  · intro hn hph
    simp [ForkBlockchain.putBlock, ForkBlockchain.getLatestBlock, ForkBlockchain.getBlock,
      ForkBlockchain.getBlockByNumber, h0, hp, hn, hph]
  · intro hn hph
    rw [ForkBlockchain.putBlock_ok o s b p ptd hp hptd hn hph]
    refine ⟨_, rfl, ?_, ?_, ?_, ?_, ?_⟩
    · rw [(ForkBlockchain.processTransactions_blocks_eq b b.transactions _).2.2.2.1]
    · rw [(ForkBlockchain.processTransactions_blocks_eq b b.transactions _).1, ← hn]
      exact upd_self _ _ _
    · rw [(ForkBlockchain.processTransactions_blocks_eq b b.transactions _).2.1]
      exact upd_self _ _ _
    · rw [(ForkBlockchain.processTransactions_blocks_eq b b.transactions _).2.2.1]
      exact upd_self _ _ _
    · intro t ht
      exact ForkBlockchain.processTransactions_tx_mem b b.transactions _ hnd t ht

/-- Witness for C3: appending onto the concrete store `sG` — a wrong number,
a wrong parent hash, and the successful append of `wB1`. -/
theorem C3_witness :
    ForkBlockchain.putBlock oNone c3BadNum sG = (.error .invalidBlockNumber, sG) ∧
    ForkBlockchain.putBlock oNone c10Block sG = (.error .invalidParentHash, sG) ∧
    ∃ S, ForkBlockchain.putBlock oNone wB1 sG = (.ok wB1, S) ∧
      S.latestBlockNumber = 1 ∧ S.blocksByNumber 1 = some wB1 ∧
      S.blocksByHash (blockHash wB1) = some wB1 ∧
      S.totalDifficultyByBlockHash (blockHash wB1) = some (5 + wB1.header.difficulty) ∧
      S.transactions (txHash wT1) = some wT1 ∧
      S.transactionToBlock (txHash wT1) = some wB1 := by
  refine ⟨?_, ?_, ?_⟩
  · exact (C3_putBlock_spec oNone sG c3BadNum wG 5 (by decide) (by decide)
      (by decide)).1 (by decide)
  · exact (C3_putBlock_spec oNone sG c10Block wG 5 (by decide) (by decide)
      (by decide)).2.1 rfl (by decide)
  · obtain ⟨S, hS, h1, h2, h3, h4, h5⟩ :=
      (C3_putBlock_spec oNone sG wB1 wG 5 (by decide) (by decide) (by decide)).2.2
        rfl (by decide)
    have ht := h5 wT1 (by decide)
    exact ⟨S, hS, h1, h2, h3, h4, ht.1, ht.2⟩

/-! ## Helper lemmas for the append/delete round trip -/

theorem putBlockState_fields (s : ForkBlockchain) (b : Block) (td0 : Nat) :
    (putBlockState s b td0).blocksByNumber = upd s.blocksByNumber b.header.number b ∧
    (putBlockState s b td0).blocksByHash = upd s.blocksByHash (blockHash b) b ∧
    (putBlockState s b td0).totalDifficultyByBlockHash =
      upd s.totalDifficultyByBlockHash (blockHash b) td0 ∧
    (putBlockState s b td0).latestBlockNumber = s.latestBlockNumber + 1 ∧
    (putBlockState s b td0).forkBlockNumber = s.forkBlockNumber :=
  ForkBlockchain.processTransactions_blocks_eq b b.transactions _

theorem putBlockState_tx_notmem (s : ForkBlockchain) (b : Block) (td0 : Nat) (k : Nat)
    (hk : ∀ t ∈ b.transactions, txHash t ≠ k) :
    (putBlockState s b td0).transactions k = s.transactions k ∧
    (putBlockState s b td0).transactionToBlock k = s.transactionToBlock k :=
  ForkBlockchain.processTransactions_tx_notmem b b.transactions _ k hk

theorem delBlockStep_fields (s : ForkBlockchain) (b : Block) (i : Nat) :
    (delBlockStep s b i).blocksByNumber = del s.blocksByNumber i ∧
    (delBlockStep s b i).blocksByHash = del s.blocksByHash (blockHash b) ∧
    (delBlockStep s b i).totalDifficultyByBlockHash =
      del s.totalDifficultyByBlockHash (blockHash b) ∧
    (delBlockStep s b i).latestBlockNumber = s.latestBlockNumber ∧
    (delBlockStep s b i).forkBlockNumber = s.forkBlockNumber :=
  ForkBlockchain.delTxs_blocks_eq b.transactions _

theorem delBlockStep_tx_notmem (s : ForkBlockchain) (b : Block) (i : Nat) (k : Nat)
    (hk : ∀ t ∈ b.transactions, txHash t ≠ k) :
    (delBlockStep s b i).transactions k = s.transactions k ∧
    (delBlockStep s b i).transactionToBlock k = s.transactionToBlock k :=
  ForkBlockchain.delTxs_tx_notmem b.transactions _ k hk

theorem delBlockStep_tx_mem (s : ForkBlockchain) (b : Block) (i : Nat) (t : Transaction)
    (ht : t ∈ b.transactions) :
    (delBlockStep s b i).transactions (txHash t) = none ∧
    (delBlockStep s b i).transactionToBlock (txHash t) = none :=
  ForkBlockchain.delTxs_tx_mem b.transactions _ t ht

theorem delLoop_one (L : Nat) (s : ForkBlockchain) (cb : Block)
    (hbn : s.blocksByNumber L = some cb) :
    ForkBlockchain.delLoop L 1 L s = (.ok (), delBlockStep s cb L) := by
  simp [ForkBlockchain.delLoop, hbn, delBlockStep]

/-- Restatement of `putBlock_ok` through `putBlockState`. -/
theorem putBlock_ok2 (o : JsonRpcClient) (s : ForkBlockchain) (b p : Block) (ptd : Nat)
    (hp : s.blocksByNumber s.latestBlockNumber = some p)
    (hptd : s.totalDifficultyByBlockHash (blockHash p) = some ptd)
    (hn : b.header.number = s.latestBlockNumber + 1)
    (hph : b.header.parentHash = blockHash p) :
    ForkBlockchain.putBlock o b s =
      (.ok b, putBlockState s b (ptd + b.header.difficulty)) :=
  ForkBlockchain.putBlock_ok o s b p ptd hp hptd hn hph

/-- C1 (amended): `appendBlock(b); deleteBlock(b.hash())` restores `L`,
`_blocksByNumber`, `_blocksByHash`, `_totalDifficultyByBlockHash` and
`_transactionToBlock` exactly, and restores `_transactions` at every hash
that is not the hash of one of `b`'s own transactions; entries at `b`'s
transactions' hashes end up removed.  In particular a transaction fetched
beforehand via `getTransaction` remains precisely when it is not one of
`b`'s transactions — if it is, the delete removes it (see the
counterexample).  Stated for a store whose latest block `p` and its total
difficulty are cached and which does not already hold `b` or block bindings
for `b`'s transactions. -/
theorem C1_amended_roundtrip (o : JsonRpcClient) (s : ForkBlockchain) (b p : Block)
    (ptd : Nat)
    (hp : s.blocksByNumber s.latestBlockNumber = some p)
    (hptd : s.totalDifficultyByBlockHash (blockHash p) = some ptd)
    (hn : b.header.number = s.latestBlockNumber + 1)
    (hph : b.header.parentHash = blockHash p)
    (hFL : s.forkBlockNumber ≤ s.latestBlockNumber)
    (hfreshN : s.blocksByNumber (s.latestBlockNumber + 1) = none)
    (hfreshH : s.blocksByHash (blockHash b) = none)
    (hfreshT : s.totalDifficultyByBlockHash (blockHash b) = none)
    (hfreshB : ∀ t ∈ b.transactions, s.transactionToBlock (txHash t) = none) :
    (ForkBlockchain.putBlock o b s).1 = .ok b ∧
    ∃ S, ForkBlockchain.delBlock (blockHash b) (ForkBlockchain.putBlock o b s).2 =
        (.ok (), S) ∧
      S.latestBlockNumber = s.latestBlockNumber ∧
      S.forkBlockNumber = s.forkBlockNumber ∧
      S.blocksByNumber = s.blocksByNumber ∧
      S.blocksByHash = s.blocksByHash ∧
      S.totalDifficultyByBlockHash = s.totalDifficultyByBlockHash ∧
      S.transactionToBlock = s.transactionToBlock ∧
      (∀ k, (∀ t ∈ b.transactions, txHash t ≠ k) →
        S.transactions k = s.transactions k) ∧
      (∀ t ∈ b.transactions, S.transactions (txHash t) = none) := by
  have hput : ForkBlockchain.putBlock o b s =
      (.ok b, putBlockState s b (ptd + b.header.difficulty)) :=
    putBlock_ok2 o s b p ptd hp hptd hn hph
  have hpf := putBlockState_fields s b (ptd + b.header.difficulty)
  have hlook : (putBlockState s b (ptd + b.header.difficulty)).blocksByHash
      (blockHash b) = some b := by
    rw [hpf.2.1]
    exact upd_self _ _ _
  have hFneg : ¬ (b.header.number ≤
      (putBlockState s b (ptd + b.header.difficulty)).forkBlockNumber) := by
    rw [hpf.2.2.2.2]
    omega
  have hbnum : (putBlockState s b (ptd + b.header.difficulty)).blocksByNumber
      (s.latestBlockNumber + 1) = some b := by
    rw [hpf.1, ← hn]
    exact upd_self _ _ _
  have hdel : ForkBlockchain.delBlock (blockHash b)
      (putBlockState s b (ptd + b.header.difficulty)) =
      (.ok (), { delBlockStep (putBlockState s b (ptd + b.header.difficulty)) b
          (s.latestBlockNumber + 1) with
        latestBlockNumber := s.latestBlockNumber }) := by
    simp only [ForkBlockchain.delBlock, hlook, if_neg hFneg]
    rw [hpf.2.2.2.1]
    rw [show s.latestBlockNumber + 1 + 1 - b.header.number = 1 from by omega]
    rw [hn]
    rw [delLoop_one (s.latestBlockNumber + 1)
      (putBlockState s b (ptd + b.header.difficulty)) b hbnum]
    rfl
  have hdf := delBlockStep_fields (putBlockState s b (ptd + b.header.difficulty)) b
    (s.latestBlockNumber + 1)
  constructor
  · rw [hput]
  · refine ⟨{ delBlockStep (putBlockState s b (ptd + b.header.difficulty)) b
        (s.latestBlockNumber + 1) with latestBlockNumber := s.latestBlockNumber },
      by rw [hput]; exact hdel, rfl, ?_, ?_, ?_, ?_, ?_, ?_, ?_⟩
    · exact hdf.2.2.2.2.trans hpf.2.2.2.2
    · show (delBlockStep (putBlockState s b (ptd + b.header.difficulty)) b
        (s.latestBlockNumber + 1)).blocksByNumber = s.blocksByNumber
      rw [hdf.1, hpf.1, hn]
      exact del_upd_cancel _ _ _ hfreshN
    · show (delBlockStep (putBlockState s b (ptd + b.header.difficulty)) b
        (s.latestBlockNumber + 1)).blocksByHash = s.blocksByHash
      rw [hdf.2.1, hpf.2.1]
      exact del_upd_cancel _ _ _ hfreshH
    · show (delBlockStep (putBlockState s b (ptd + b.header.difficulty)) b
        (s.latestBlockNumber + 1)).totalDifficultyByBlockHash =
        s.totalDifficultyByBlockHash
      rw [hdf.2.2.1, hpf.2.2.1]
      exact del_upd_cancel _ _ _ hfreshT
    · show (delBlockStep (putBlockState s b (ptd + b.header.difficulty)) b
        (s.latestBlockNumber + 1)).transactionToBlock = s.transactionToBlock
      funext k
      by_cases hk : ∃ t ∈ b.transactions, txHash t = k
      · obtain ⟨t, ht, rfl⟩ := hk
        rw [(delBlockStep_tx_mem _ b _ t ht).2, hfreshB t ht]
      · push_neg at hk
        rw [(delBlockStep_tx_notmem _ b _ k hk).2,
          (putBlockState_tx_notmem s b _ k hk).2]
    · intro k hk
      show (delBlockStep (putBlockState s b (ptd + b.header.difficulty)) b
        (s.latestBlockNumber + 1)).transactions k = s.transactions k
      rw [(delBlockStep_tx_notmem _ b _ k hk).1,
        (putBlockState_tx_notmem s b _ k hk).1]
    · intro t ht
      exact (delBlockStep_tx_mem _ b _ t ht).1

/-- C1 counterexample: in the store `sPre` the transaction `wT1` was fetched
beforehand via `getTransaction` (it is in `_transactions`); `wB1`, which
contains that very transaction, is appended and then deleted.  The round
trip succeeds but `_transactions` is not restored: the prefetched entry is
gone, contradicting the claim that it remains. -/
theorem C1_counterexample :
    (ForkBlockchain.putBlock oNone wB1 sPre).1 = .ok wB1 ∧
    (ForkBlockchain.delBlock (blockHash wB1)
      (ForkBlockchain.putBlock oNone wB1 sPre).2).1 = .ok () ∧
    sPre.transactions (txHash wT1) = some wT1 ∧
    (ForkBlockchain.delBlock (blockHash wB1)
      (ForkBlockchain.putBlock oNone wB1 sPre).2).2.transactions (txHash wT1) =
      none := by
  refine ⟨rfl, rfl, rfl, rfl⟩

/-- Witness for the amended C1 at the concrete store `sG` and block `wB1`
(whose transaction is not already block-bound). -/
theorem C1_witness :
    (ForkBlockchain.putBlock oNone wB1 sG).1 = .ok wB1 ∧
    ∃ S, ForkBlockchain.delBlock (blockHash wB1)
        (ForkBlockchain.putBlock oNone wB1 sG).2 = (.ok (), S) ∧
      S.latestBlockNumber = sG.latestBlockNumber ∧
      S.blocksByNumber = sG.blocksByNumber ∧
      S.blocksByHash = sG.blocksByHash ∧
      S.transactions (txHash wT1) = none := by
  obtain ⟨h1, S, h2, h3, _, h5, h6, _, _, _, h10⟩ :=
    C1_amended_roundtrip oNone sG wB1 wG 5 (by decide) (by decide) rfl (by decide)
      (by decide) (by decide) (by decide) (by decide)
      (fun t ht => rfl)
  exact ⟨h1, S, h2, h3, h5, h6, h10 wT1 (by decide)⟩

namespace ForkBlockchain

/-! ## Error classification for `putBlock`'s failure paths -/

theorem processRemoteBlock_err (rpc : Option RpcBlockWithTransactions)
    (s : ForkBlockchain) (e : Err) (s' : ForkBlockchain)
    (hE : processRemoteBlock rpc s = (.error e, s')) :
    e = .blockNotFound ∧ s' = s := by
  cases rpc with
  | none =>
    simp only [processRemoteBlock, Prod.mk.injEq] at hE
    exact ⟨(Except.error.inj hE.1).symm, hE.2.symm⟩
  | some r =>
    cases hh : r.hash with
    | none =>
      simp only [processRemoteBlock, hh, Prod.mk.injEq] at hE
      exact ⟨(Except.error.inj hE.1).symm, hE.2.symm⟩
    | some rhash =>
      cases hnn : r.number with
      | none =>
        simp only [processRemoteBlock, hh, hnn, Prod.mk.injEq] at hE
        exact ⟨(Except.error.inj hE.1).symm, hE.2.symm⟩
      | some rnumber =>
        by_cases hF : s.forkBlockNumber < rnumber
        · simp only [processRemoteBlock, hh, hnn, if_pos hF, Prod.mk.injEq] at hE
          exact ⟨(Except.error.inj hE.1).symm, hE.2.symm⟩
        · simp [processRemoteBlock, hh, hnn, hF] at hE

theorem getBlockByNumber_err (o : JsonRpcClient) (n : Nat) (s : ForkBlockchain)
    (e : Err) (s' : ForkBlockchain)
    (hE : getBlockByNumber o n s = (.error e, s')) :
    e = .blockNotFound ∧ s' = s := by
  simp only [getBlockByNumber] at hE
  by_cases hL : s.latestBlockNumber < n
  · simp only [if_pos hL, Prod.mk.injEq] at hE
    exact ⟨(Except.error.inj hE.1).symm, hE.2.symm⟩
  · simp only [if_neg hL] at hE
    cases hbn : s.blocksByNumber n with
    | some blk =>
      rw [hbn] at hE
      simp at hE
    | none =>
      rw [hbn] at hE
      exact processRemoteBlock_err _ _ _ _ hE

theorem computeTotalDifficulty_err (o : JsonRpcClient) (b : Block) (s : ForkBlockchain)
    (e : Err) (s' : ForkBlockchain)
    (hE : computeTotalDifficulty o b s = (.error e, s')) :
    e = .blockNotFound ∨ e = .shouldNeverHappen := by
  simp only [computeTotalDifficulty] at hE
  by_cases h0 : b.header.number = 0
  · simp [h0] at hE
  · simp only [if_neg h0] at hE
    cases hbn : s.blocksByNumber (b.header.number - 1) with
    | some pb =>
      simp only [hbn] at hE
      cases htd : s.totalDifficultyByBlockHash (blockHash pb) with
      | none =>
        simp only [htd, Prod.mk.injEq] at hE
        right
        exact (Except.error.inj hE.1).symm
      | some td =>
        simp only [htd, Prod.mk.injEq] at hE
        exact absurd hE.1 (by simp)
    | none =>
      simp only [hbn] at hE
      rcases hgb : getBlockByNumber o (b.header.number - 1) s with ⟨res, s2⟩
      simp only [hgb] at hE
      cases res with
      | error e2 =>
        simp only [Prod.mk.injEq] at hE
        left
        rw [← Except.error.inj hE.1]
        exact (getBlockByNumber_err o _ s e2 s2 hgb).1
      | ok pb =>
        cases htd : s2.totalDifficultyByBlockHash (blockHash pb) with
        | none =>
          simp only [htd, Prod.mk.injEq] at hE
          right
          exact (Except.error.inj hE.1).symm
        | some td =>
          simp only [htd, Prod.mk.injEq] at hE
          exact absurd hE.1 (by simp)

/-- How `_getBlockByNumber` can change the store: not at all, or by
installing the fetched remote block (which, for an honest upstream, sits at
the queried height). -/
theorem getBlockByNumber_char (o : JsonRpcClient) (hon : Honest o) (n : Nat)
    (s : ForkBlockchain) :
    (getBlockByNumber o n s).2 = s ∨
    ∃ r, o.getBlockByNumber n = some r ∧ r.block.header.number = n ∧
      (getBlockByNumber o n s).2 =
        processTransactions r.block r.block.transactions
          { s with
            blocksByNumber := upd s.blocksByNumber n r.block
            blocksByHash := upd s.blocksByHash (blockHash r.block) r.block
            totalDifficultyByBlockHash :=
              upd s.totalDifficultyByBlockHash (blockHash r.block) r.totalDifficulty } := by
  simp only [getBlockByNumber]
  by_cases hL : s.latestBlockNumber < n
  · left
    simp [hL]
  · simp only [if_neg hL]
    cases hbn : s.blocksByNumber n with
    | some blk => left; rfl
    | none =>
      cases hrpc : o.getBlockByNumber n with
      | none => left; simp [processRemoteBlock]
      | some r =>
        obtain ⟨h1, h2, h3⟩ := hon.byNumber n r hrpc
        by_cases hF : s.forkBlockNumber < n
        · left
          simp [processRemoteBlock, h1, h2, hF]
        · right
          refine ⟨r, rfl, h3, ?_⟩
          simp [processRemoteBlock, h1, h2, hF]

/-- All ways `putBlock` can fail, with the failing state where the source
pins it down. -/
theorem putBlock_cases (o : JsonRpcClient) (s : ForkBlockchain) (b : Block) (e : Err)
    (S : ForkBlockchain) (hE : putBlock o b s = (.error e, S)) :
    (e = .invalidBlockNumber ∧ b.header.number ≠ s.latestBlockNumber + 1 ∧ S = s) ∨
    (e = .blockNotFound ∧ S = s) ∨
    (∃ parent, e = .invalidParentHash ∧
      getLatestBlock o s = (.ok parent, S) ∧
      b.header.parentHash ≠ blockHash parent ∧
      b.header.number = s.latestBlockNumber + 1) ∨
    ((e = .blockNotFound ∨ e = .shouldNeverHappen) ∧
      b.header.number = s.latestBlockNumber + 1) := by
  by_cases hn : b.header.number ≠ s.latestBlockNumber + 1
  · simp only [putBlock, if_pos hn, Prod.mk.injEq] at hE
    exact Or.inl ⟨(Except.error.inj hE.1).symm, hn, hE.2.symm⟩
  · have heq := not_not.mp hn
    simp only [putBlock, if_neg hn] at hE
    rcases hgl : getLatestBlock o s with ⟨res, s'⟩
    rw [hgl] at hE
    cases res with
    | error e2 =>
      simp only [Prod.mk.injEq] at hE
      have hcl := getBlockByNumber_err o s.latestBlockNumber s e2 s' hgl
      refine Or.inr (Or.inl ⟨?_, ?_⟩)
      · rw [← Except.error.inj hE.1]
        exact hcl.1
      · rw [← hE.2]
        exact hcl.2
    | ok parent =>
      by_cases hph : b.header.parentHash ≠ blockHash parent
      · simp only [if_pos hph, Prod.mk.injEq] at hE
        refine Or.inr (Or.inr (Or.inl ⟨parent, (Except.error.inj hE.1).symm, ?_, hph, heq⟩))
        rw [hE.2]
      · simp only [if_neg hph] at hE
        split at hE
        · rename_i e4 s3 hcmp
          simp only [Prod.mk.injEq] at hE
          refine Or.inr (Or.inr (Or.inr ⟨?_, heq⟩))
          rw [← Except.error.inj hE.1]
          exact computeTotalDifficulty_err o b _ e4 s3 hcmp
        · simp at hE

end ForkBlockchain

/-- C10 (amended): when `putBlock(b)` fails its number check the store is
untouched; when it fails the parent-hash check with the latest block cached,
the store is untouched; and in general (honest upstream) both failures leave
`L` unchanged and leave `b` absent from `_blocksByNumber`, `_blocksByHash`
and `_totalDifficultyByBlockHash`.  The original claim's parenthetical —
that both validity checks precede any index mutation — fails on the code:
the parent-hash check runs after `getLatestBlock`, whose demand fetch may
cache the fork-base block (see the counterexample). -/
theorem C10_amended_frame (o : JsonRpcClient) (s : ForkBlockchain) (b : Block) :
    (∀ S, ForkBlockchain.putBlock o b s = (.error .invalidBlockNumber, S) → S = s) ∧
    (∀ p, s.blocksByNumber s.latestBlockNumber = some p →
      ∀ S, (ForkBlockchain.putBlock o b s = (.error .invalidBlockNumber, S) ∨
            ForkBlockchain.putBlock o b s = (.error .invalidParentHash, S)) → S = s) ∧
    (Honest o → ∀ S,
      (ForkBlockchain.putBlock o b s = (.error .invalidBlockNumber, S) ∨
       ForkBlockchain.putBlock o b s = (.error .invalidParentHash, S)) →
      S.latestBlockNumber = s.latestBlockNumber ∧
      S.blocksByHash (blockHash b) = s.blocksByHash (blockHash b) ∧
      S.totalDifficultyByBlockHash (blockHash b) =
        s.totalDifficultyByBlockHash (blockHash b) ∧
      ∀ k, S.blocksByNumber k = some b → s.blocksByNumber k = some b) := by
  have hibn : ∀ S, ForkBlockchain.putBlock o b s = (.error .invalidBlockNumber, S) →
      S = s := by
    intro S hS
    rcases ForkBlockchain.putBlock_cases o s b _ S hS with
      ⟨_, _, hs⟩ | ⟨he, _⟩ | ⟨parent, he, _, _, _⟩ | ⟨he, _⟩
    · exact hs
    · cases he
    · cases he
    · rcases he with he | he <;> cases he
  have hiphS : ∀ S, ForkBlockchain.putBlock o b s = (.error .invalidParentHash, S) →
      ∃ parent, ForkBlockchain.getLatestBlock o s = (.ok parent, S) ∧
        b.header.number = s.latestBlockNumber + 1 := by
    intro S hS
    rcases ForkBlockchain.putBlock_cases o s b _ S hS with
      ⟨he, _, _⟩ | ⟨he, _⟩ | ⟨parent, _, hgl, _, heq⟩ | ⟨he, _⟩
    · cases he
    · cases he
    · exact ⟨parent, hgl, heq⟩
    · rcases he with he | he <;> cases he
  refine ⟨hibn, ?_, ?_⟩
  · intro p hp S hS
    rcases hS with hS | hS
    · exact hibn S hS
    · obtain ⟨parent, hgl, _⟩ := hiphS S hS
      have hcache : ForkBlockchain.getLatestBlock o s = (.ok p, s) := by
        simp [ForkBlockchain.getLatestBlock, ForkBlockchain.getBlock,
          ForkBlockchain.getBlockByNumber, lt_irrefl, hp]
      rw [hcache] at hgl
      simp only [Prod.mk.injEq] at hgl
      exact hgl.2.symm
  · intro hon S hS
    rcases hS with hS | hS
    · rw [hibn S hS]
      exact ⟨rfl, rfl, rfl, fun k hk => hk⟩
    · obtain ⟨parent, hgl, heq⟩ := hiphS S hS
      have h2 : (ForkBlockchain.getBlockByNumber o s.latestBlockNumber s).2 = S := by
        rw [show ForkBlockchain.getBlockByNumber o s.latestBlockNumber s =
          (.ok parent, S) from hgl]
      rcases ForkBlockchain.getBlockByNumber_char o hon s.latestBlockNumber s with
        hchar | ⟨r, hr, hrnum, hchar⟩
      · rw [← h2, hchar]
        exact ⟨rfl, rfl, rfl, fun k hk => hk⟩
      · have hSr : S = ForkBlockchain.processTransactions r.block r.block.transactions
            { s with
              blocksByNumber := upd s.blocksByNumber s.latestBlockNumber r.block
              blocksByHash := upd s.blocksByHash (blockHash r.block) r.block
              totalDifficultyByBlockHash :=
                upd s.totalDifficultyByBlockHash (blockHash r.block) r.totalDifficulty } := by
          rw [← h2, hchar]
        have hne : r.block ≠ b := by
          intro hcol
          rw [hcol] at hrnum
          omega
        have hbe := ForkBlockchain.processTransactions_blocks_eq r.block
          r.block.transactions
          { s with
            blocksByNumber := upd s.blocksByNumber s.latestBlockNumber r.block
            blocksByHash := upd s.blocksByHash (blockHash r.block) r.block
            totalDifficultyByBlockHash :=
              upd s.totalDifficultyByBlockHash (blockHash r.block) r.totalDifficulty }
        have hhne : blockHash b ≠ blockHash r.block := by
          intro hcol
          exact hne (blockHash_inj _ _ hcol.symm)
        refine ⟨?_, ?_, ?_, ?_⟩
        · rw [hSr]
          exact hbe.2.2.2.1
        · rw [hSr, hbe.2.1]
          exact upd_ne _ _ _ _ hhne
        · rw [hSr, hbe.2.2.1]
          exact upd_ne _ _ _ _ hhne
        · intro k hk
          rw [hSr, hbe.1] at hk
          have hk' : upd s.blocksByNumber s.latestBlockNumber r.block k = some b := hk
          by_cases hkL : k = s.latestBlockNumber
          · subst hkL
            rw [upd_self] at hk'
            exact absurd (Option.some.inj hk') hne
          · rw [upd_ne _ _ _ _ hkL] at hk'
            exact hk'

/-- C10 counterexample: appending onto a fresh fork (`F = 0`, nothing
cached) a block with a bad parent hash fails with `Invalid parent hash`, yet
the parent-hash check ran only after `getLatestBlock` demand-fetched and
cached the fork base: an index mutation precedes the second validity
check, so the claim's "both validity checks happen before any index
mutation" is false at this input. -/
theorem C10_counterexample :
    (ForkBlockchain.putBlock oG c10Block (ForkBlockchain.init 0)).1 =
      .error .invalidParentHash ∧
    (ForkBlockchain.init 0).blocksByHash (blockHash wG) = none ∧
    (ForkBlockchain.putBlock oG c10Block (ForkBlockchain.init 0)).2.blocksByHash
      (blockHash wG) = some wG :=
  ⟨rfl, rfl, rfl⟩

/-- Witness for the amended C10: both failing appends on the concrete store
`sG` (cached latest block) leave the store exactly unchanged. -/
theorem C10_witness :
    ForkBlockchain.putBlock oNone c3BadNum sG = (.error .invalidBlockNumber, sG) ∧
    ForkBlockchain.putBlock oNone c10Block sG = (.error .invalidParentHash, sG) ∧
    (∀ S, ForkBlockchain.putBlock oNone c3BadNum sG =
      (.error .invalidBlockNumber, S) → S = sG) ∧
    (∀ S, ForkBlockchain.putBlock oNone c10Block sG =
      (.error .invalidParentHash, S) → S = sG) := by
  refine ⟨rfl, rfl, ?_, ?_⟩
  · exact fun S hS => (C10_amended_frame oNone sG c3BadNum).1 S hS
  · exact fun S hS =>
      (C10_amended_frame oNone sG c10Block).2.1 wG (by decide) S (Or.inr hS)

/-- C7 (amended): the total-difficulty recurrence holds for blocks installed
by `putBlock`: immediately after a successful append of `b` onto cached
parent `p` (with stored TD `ptd`), the store maps `b`'s hash to
`ptd + b.header.difficulty`, with `p` still at height `n - 1` carrying `ptd`;
and `_computeTotalDifficulty` of a height-0 block is its header difficulty.
The claim as frozen fails for demand-loaded remote blocks, whose stored TD
is the upstream-reported `totalDifficulty`, unchecked against any parent
(see the counterexample). -/
theorem C7_amended_td_recurrence (o : JsonRpcClient) (s : ForkBlockchain) (b p : Block)
    (ptd : Nat)
    (hp : s.blocksByNumber s.latestBlockNumber = some p)
    (hptd : s.totalDifficultyByBlockHash (blockHash p) = some ptd)
    (hn : b.header.number = s.latestBlockNumber + 1)
    (hph : b.header.parentHash = blockHash p)
    (hpb : p ≠ b) :
    (∃ S, ForkBlockchain.putBlock o b s = (.ok b, S) ∧
      S.totalDifficultyByBlockHash (blockHash b) = some (ptd + b.header.difficulty) ∧
      S.blocksByNumber (b.header.number - 1) = some p ∧
      S.totalDifficultyByBlockHash (blockHash p) = some ptd) ∧
    (∀ (b' : Block) (s' : ForkBlockchain), b'.header.number = 0 →
      ForkBlockchain.computeTotalDifficulty o b' s' = (.ok b'.header.difficulty, s')) := by
  constructor
  · have hpf := putBlockState_fields s b (ptd + b.header.difficulty)
    refine ⟨putBlockState s b (ptd + b.header.difficulty),
      putBlock_ok2 o s b p ptd hp hptd hn hph, ?_, ?_, ?_⟩
    · rw [hpf.2.2.1]
      exact upd_self _ _ _
    · rw [hpf.1, show b.header.number - 1 = s.latestBlockNumber from by omega,
        upd_ne _ _ _ _ (by omega)]
      exact hp
    · rw [hpf.2.2.1, upd_ne _ _ _ _ (fun hcol => hpb (blockHash_inj p b hcol))]
      exact hptd
  · intro b' s' h0
    simp [ForkBlockchain.computeTotalDifficulty, h0]

/-- C7 counterexample: demand-loading block 3 (difficulty 7, upstream TD
999) from the honest oracle `c7Oracle` into a fresh fork at `F = 5` yields a
reachable store in which block 3's TD is populated while height 2 is not
even cached, so the claimed equation
`tdByHash[b.hash()] = tdByHash[byNumber[n-1].hash()] + b.header.difficulty`
has no witness: the claim is false in this reachable state. -/
theorem C7_counterexample :
    Reachable c7State ∧
    c7State.blocksByNumber 3 = some cB3 ∧
    c7State.totalDifficultyByBlockHash (blockHash cB3) = some 999 ∧
    c7State.blocksByNumber 2 = none ∧
    ¬ (∀ (n : Nat) (b : Block), c7State.blocksByNumber n = some b → 0 < n →
        c7State.totalDifficultyByBlockHash (blockHash b) ≠ none →
        ∃ pb tp, c7State.blocksByNumber (n - 1) = some pb ∧
          c7State.totalDifficultyByBlockHash (blockHash pb) = some tp ∧
          c7State.totalDifficultyByBlockHash (blockHash b) =
            some (tp + b.header.difficulty)) := by
  have hhon : Honest c7Oracle := by
    constructor
    · intro n r hr
      simp only [c7Oracle] at hr
      by_cases h3 : n = 3
      · subst h3
        rw [if_pos rfl] at hr
        have hrc : c7rpc = r := Option.some.inj hr
        subst hrc
        exact ⟨rfl, rfl, rfl⟩
      · rw [if_neg h3] at hr
        exact Option.noConfusion hr
    · intro h r hr
      exact Option.noConfusion hr
  refine ⟨?_, rfl, rfl, rfl, ?_⟩
  · exact Reachable.stepGetBlock (ForkBlockchain.init 5) c7Oracle (.number 3)
      (Reachable.init 5) hhon
  · intro hclaim
    obtain ⟨pb, tp, hpb, _, _⟩ :=
      hclaim 3 cB3 rfl (by omega) (by rw [show c7State.totalDifficultyByBlockHash
        (blockHash cB3) = some 999 from rfl]; simp)
    rw [show c7State.blocksByNumber 2 = none from rfl] at hpb
    exact Option.noConfusion hpb

/-- Witness for the amended C7: appending `wB1` (difficulty 3) onto `sG`
stores TD `5 + 3` for it, and the genesis branch of
`_computeTotalDifficulty` returns the header difficulty. -/
theorem C7_witness :
    (∃ S, ForkBlockchain.putBlock oNone wB1 sG = (.ok wB1, S) ∧
      S.totalDifficultyByBlockHash (blockHash wB1) =
        some (5 + wB1.header.difficulty) ∧
      S.totalDifficultyByBlockHash (blockHash wG) = some 5) ∧
    ForkBlockchain.computeTotalDifficulty oNone wG sG = (.ok wG.header.difficulty, sG) := by
  have happ := C7_amended_td_recurrence oNone sG wB1 wG 5 (by decide) (by decide) rfl
    (by decide) (by decide)
  obtain ⟨S, h1, h2, _, h4⟩ := happ.1
  exact ⟨⟨S, h1, h2, h4⟩, happ.2 wG sG rfl⟩

/-- C6: in every reachable store, every key of `_blocksByHash` is also a key
of `_totalDifficultyByBlockHash`; consequently `getBlockTotalDifficulty`
never reaches its internal `This should never happen` branch (for any honest
upstream): after a successful block resolution the total difficulty is
always found. -/
theorem C6_byHash_td_invariant (s : ForkBlockchain) (hs : Reachable s) :
    (∀ h, s.blocksByHash h ≠ none → s.totalDifficultyByBlockHash h ≠ none) ∧
    (∀ (o : JsonRpcClient) (h : Nat), Honest o →
      (ForkBlockchain.getBlockTotalDifficulty o h s).1 ≠ .error .shouldNeverHappen) := by
  have hinv := ForkBlockchain.Reachable_inv s hs
  exact ⟨hinv.2.1, fun o h hon =>
    ForkBlockchain.getBlockTotalDifficulty_ne_snh o hon h s hinv⟩

/-- Witness for C6 at the freshly constructed store and the silent oracle. -/
theorem C6_witness :
    Reachable (ForkBlockchain.init 0) ∧
    (∀ h, (ForkBlockchain.init 0).blocksByHash h ≠ none →
      (ForkBlockchain.init 0).totalDifficultyByBlockHash h ≠ none) ∧
    (ForkBlockchain.getBlockTotalDifficulty oNone 7 (ForkBlockchain.init 0)).1 ≠
      .error .shouldNeverHappen := by
  have hr : Reachable (ForkBlockchain.init 0) := Reachable.init 0
  have hon : Honest oNone :=
    ⟨fun n r hhr => Option.noConfusion hhr, fun h r hhr => Option.noConfusion hhr⟩
  have happ := C6_byHash_td_invariant (ForkBlockchain.init 0) hr
  exact ⟨hr, happ.1, happ.2 oNone 7 hon⟩
